import Mathlib

/-!
Verification of the sales-commission reconciliation engine
(`models/commission_service.py`, method `run_commission_sync`).

Shallow embedding conventions:
* Odoo recordsets become Lean lists; a many2one navigation (`line.move_id`)
  is embedded as a nested structure field, and `browse(id).exists()` becomes a
  lookup in the environment's line list.
* Python floats are embedded as exact rationals `ℚ`; `odoo.tools.float_compare`
  and `currency.is_zero` (the external numeric-comparison primitives of spec
  section 6) are embedded with Odoo's half-away-from-zero rounding semantics on
  `ℚ`.
* The engine's writes are made explicit: `runOps` produces the ordered list of
  write operations (per-record `write`, one bulk `unlink`, chunked `create`
  batches) exactly as the source emits them, and `applyOps` applies them to the
  store.  In the source the per-record field writes happen inside the diff loop;
  since the loop never reads a commission record it has already written (each
  record is visited once), collecting the write operations and applying them
  after the loop is an equivalent embedding.
* The `_get_service` step is a bookkeeping no-op (spec section 5: "carrying no
  locking semantics and safe to ignore"); it touches only the singleton service
  record, never the commission ledger, so it is not part of the state here.
* The model `sales.commission.line` and the `commission_rate` field on the
  product template are declared elsewhere in the addon (views/fields not under
  the sources verified here); their structures below are modelled from the
  spec's data model (section 3).
-/

namespace CommissionSync

/-- State of the parent document (`move_id.state`). -/
inductive MoveState where
  | draft
  | posted
  | cancelled
deriving DecidableEq, Repr

/-- Type of the parent document (`move_id.move_type`); `other` stands for the
remaining Odoo move types (entries, vendor bills, ...). -/
inductive MoveType where
  | outInvoice
  | outRefund
  | other
deriving DecidableEq, Repr

/-- Payment state of the parent document (`move_id.payment_state`). -/
inductive PayState where
  | notPaid
  | inPayment
  | paid
  | partPaid
  | reversed
deriving DecidableEq, Repr

/-- Kind of an invoice line (`display_type`), per the spec's data model:
`line_kind ∈ \x7bproduct_line, section, note\x7d`. -/
inductive LineKind where
  | product
  | section
  | note
deriving DecidableEq, Repr

/-- A unit of measure; carries a rounding precision (`uom.rounding`). -/
structure Uom where
  rounding : ℚ
deriving DecidableEq, Repr

/-- A currency; carries its rounding (used by the `is_zero` primitive). -/
structure Currency where
  rounding : ℚ
deriving DecidableEq, Repr

/-- Modelled from the spec: `ProductCommissionRate` (section 3), the decimal
percentage stored on the product template (`product_tmpl_id.commission_rate`);
the field itself is declared outside the verified sources. -/
structure ProductTmpl where
  commissionRate : ℚ
deriving DecidableEq, Repr

/-- A product (`product.product`); `tmpl` is `product_tmpl_id`. -/
structure Product where
  id : ℕ
  tmpl : Option ProductTmpl
deriving DecidableEq, Repr

/-- A parent document (`account.move`). -/
structure Move where
  id : ℕ
  state : MoveState
  moveType : MoveType
  paymentState : PayState
  invoiceUserId : Option ℕ
  companyId : ℕ
deriving DecidableEq, Repr

/-- A SourceLine (`account.move.line`); `move` embeds the `move_id` navigation,
`uom` is `product_uom_id`. -/
structure MoveLine where
  id : ℕ
  move : Move
  product : Option Product
  displayType : LineKind
  quantity : ℚ
  priceSubtotal : ℚ
  uom : Option Uom
deriving DecidableEq, Repr

/-- The read-only environment of one run: the source ledger, the currency of
each company (`company_currency_id` resolves through it) and the invoking
user (`self.env.user`). -/
structure Env where
  lines : List MoveLine
  currencies : List (ℕ × Currency)
  envUserId : ℕ
deriving DecidableEq, Repr

/-- Modelled from the spec: a CommissionRecord (`sales.commission.line`,
section 3); the model is declared outside the verified sources.  Relational
fields are `Option` because a stored many2one may be unset;
`company_currency_id` is related through `companyId` and is therefore not
stored here but resolved via `lookupCurrency`. -/
structure CommissionLine where
  id : ℕ
  invoiceLineId : Option ℕ
  salespersonId : Option ℕ
  invoiceId : Option ℕ
  productId : Option ℕ
  quantity : ℚ
  commissionRate : ℚ
  commissionAmount : ℚ
  lineSubtotal : ℚ
  companyId : Option ℕ
deriving DecidableEq, Repr

/-- The mutable store owned by the engine: the commission ledger plus the next
fresh database id. -/
structure State where
  commLines : List CommissionLine
  nextId : ℕ
deriving DecidableEq, Repr

/-- `move_line_model.browse(i)` followed by `exists()`: find the source line
with database id `i`. -/
def lookupLine (env : Env) (i : ℕ) : Option MoveLine :=
  env.lines.find? (fun l => l.id == i)

/-- Resolve `company_currency_id` for a stored `company_id`. -/
def lookupCurrency (env : Env) (c : Option ℕ) : Option Currency :=
  c.bind (fun cid => (env.currencies.find? (fun p => p.1 == cid)).map (fun p => p.2))

/-! ### Numeric comparison primitives (spec section 6)

Odoo's `float_round` rounds half away from zero at a rounding increment;
`float_is_zero` and `float_compare` are built on it.  `precision_digits=d`
means the increment `10^(-d)`. -/

/-- Round to the nearest integer, halves away from zero. -/
def roundAway (q : ℚ) : ℤ :=
  if 0 ≤ q then ⌊q + 1/2⌋ else -⌊-q + 1/2⌋

/-- `float_round(x, precision_rounding=r)`. -/
def floatRound (x r : ℚ) : ℚ :=
  (roundAway (x / r) : ℚ) * r

/-- `float_is_zero(x, precision_rounding=r)`. -/
def floatIsZero (x r : ℚ) : Bool :=
  decide (|floatRound x r| < r)

/-- `float_compare(a, b, precision_rounding=r) != 0`: the values differ beyond
the tolerance `r`. -/
def floatDiffersR (a b r : ℚ) : Bool :=
  !(floatIsZero (a - b) r)

/-- The rounding increment of `precision_digits=d`. -/
def digitsRounding (d : ℕ) : ℚ :=
  1 / 10 ^ d

/-- `float_compare(a, b, precision_digits=d) != 0`. -/
def floatDiffersD (a b : ℚ) (d : ℕ) : Bool :=
  floatDiffersR a b (digitsRounding d)

/-- `currency.is_zero(x)`: zero up to the currency's rounding. -/
def currencyIsZero (c : Currency) (x : ℚ) : Bool :=
  floatIsZero x c.rounding

/-! ### Association lists with Python-dict semantics

The source builds `eligible_map` and `existing_map` as Python dicts keyed by
the source-line id.  A dict preserves insertion order; inserting an existing
key replaces the value in place. -/

/-- The keys of an association list, in order. -/
def keysOf {α : Type} (m : List (ℕ × α)) : List ℕ :=
  m.map Prod.fst

/-- Python dict assignment `m[k] = v`: replace in place or append. -/
def dictInsert {α : Type} (m : List (ℕ × α)) (k : ℕ) (v : α) : List (ℕ × α) :=
  match m with
  | [] => [(k, v)]
  | (k', v') :: rest =>
      if k' = k then (k, v) :: rest else (k', v') :: dictInsert rest k v

/-- Python dict lookup `m.get(k)`. -/
def lookupD {α : Type} (m : List (ℕ × α)) (k : ℕ) : Option α :=
  (m.find? (fun e => e.1 == k)).map (fun e => e.2)

/-- Python `m.pop(k, None)`: the looked-up value together with the map with
that key removed. -/
def dictPop {α : Type} (m : List (ℕ × α)) (k : ℕ) : Option α × List (ℕ × α) :=
  match m with
  | [] => (none, [])
  | (k', v') :: rest =>
      if k' = k then (some v', rest)
      else
        let r := dictPop rest k
        (r.1, (k', v') :: r.2)

/-- One step of a dict-building loop: insert `f b` when it yields a pair. -/
def dictStep {α β : Type} (f : β → Option (ℕ × α)) (m : List (ℕ × α)) (b : β) :
    List (ℕ × α) :=
  match f b with
  | none => m
  | some kv => dictInsert m kv.1 kv.2

/-- Build a dict from a list, inserting `f b` (key, value) for each element
that yields one; this is the common shape of the two dict-building loops. -/
def dictOfList {α β : Type} (f : β → Option (ℕ × α)) (ls : List β) : List (ℕ × α) :=
  ls.foldl (dictStep f) []

/-! ### Phase 1: eligibility scan -/

/-- The first `search` domain: posted, paid customer invoices, product set,
section and note lines excluded. -/
def invSearch (l : MoveLine) : Bool :=
  decide (l.move.state = MoveState.posted) &&
  decide (l.move.moveType = MoveType.outInvoice) &&
  decide (l.move.paymentState = PayState.paid) &&
  l.product.isSome &&
  !(decide (l.displayType = LineKind.section)) &&
  !(decide (l.displayType = LineKind.note))

/-- The second `search` domain: posted credit notes (no payment-state
condition), product set, section and note lines excluded. -/
def refundSearch (l : MoveLine) : Bool :=
  decide (l.move.state = MoveState.posted) &&
  decide (l.move.moveType = MoveType.outRefund) &&
  l.product.isSome &&
  !(decide (l.displayType = LineKind.section)) &&
  !(decide (l.displayType = LineKind.note))

/-- `eligible_lines = invoice_lines | refund_lines`.  The two domains are
mutually exclusive (a move has one `move_type`), so the recordset union is the
concatenation of the two search results. -/
def eligibleLines (env : Env) : List MoveLine :=
  env.lines.filter invSearch ++ env.lines.filter refundSearch

/-- The computed commission attributes of one eligible line (the value stored
into `eligible_map`). -/
structure Vals where
  salespersonId : ℕ
  invoiceId : ℕ
  invoiceLineId : ℕ
  productId : ℕ
  quantity : ℚ
  commissionRate : ℚ
  commissionAmount : ℚ
  lineSubtotal : ℚ
  companyId : ℕ
deriving DecidableEq, Repr

/-- The body of the `eligible_map` loop for one line: skip when the product or
its template is missing or the commission rate is not positive, otherwise
compute the commission attributes (`commission_amount` negated for credit
notes, salesperson falling back to the invoking user). -/
def computeVals (env : Env) (l : MoveLine) : Option Vals :=
  match l.product with
  | none => none
  | some p =>
      match p.tmpl with
      | none => none
      | some t =>
          if t.commissionRate ≤ 0 then none
          else
            let base := l.priceSubtotal
            let amt0 := base * (t.commissionRate / 100)
            let amt := if l.move.moveType = MoveType.outRefund then -amt0 else amt0
            some
              { salespersonId := l.move.invoiceUserId.getD env.envUserId
                invoiceId := l.move.id
                invoiceLineId := l.id
                productId := p.id
                quantity := l.quantity
                commissionRate := t.commissionRate
                commissionAmount := amt
                lineSubtotal := base
                companyId := l.move.companyId }

/-- `eligible_map`: source line id → computed commission attributes. -/
def buildEligMap (env : Env) : List (ℕ × Vals) :=
  dictOfList (fun l => (computeVals env l).map (fun v => (l.id, v))) (eligibleLines env)

/-! ### Phase 2: diff -/

/-- `existing_map`: existing commission lines indexed by `invoice_line_id`
(records with the reference unset are skipped). -/
def existingMap (ls : List CommissionLine) : List (ℕ × CommissionLine) :=
  dictOfList (fun cl => cl.invoiceLineId.map (fun k => (k, cl))) ls

/-- The partial update payload of one record: a field is `some` exactly when
the source writes it. -/
structure UpdateVals where
  salespersonId : Option ℕ
  invoiceId : Option ℕ
  productId : Option ℕ
  quantity : Option ℚ
  commissionRate : Option ℚ
  commissionAmount : Option ℚ
  lineSubtotal : Option ℚ
  companyId : Option ℕ
deriving DecidableEq, Repr

/-- `if updates:` — whether the payload writes any field. -/
def UpdateVals.hasAny (p : UpdateVals) : Bool :=
  p.salespersonId.isSome || p.invoiceId.isSome || p.productId.isSome ||
  p.quantity.isSome || p.commissionRate.isSome || p.commissionAmount.isSome ||
  p.lineSubtotal.isSome || p.companyId.isSome

/-- `commission_line.invoice_line_id.product_uom_id`: the unit of measure of
the record's source line. -/
def uomOf (env : Env) (cl : CommissionLine) : Option Uom :=
  (cl.invoiceLineId.bind (lookupLine env)).bind (fun l => l.uom)

/-- The quantity dirty-check: at the unit-of-measure rounding when a unit with
a nonzero rounding is available, else at 6 decimal digits. -/
def qtyDiffers (env : Env) (cl : CommissionLine) (v : Vals) : Bool :=
  match uomOf env cl with
  | some u =>
      if u.rounding ≠ 0 then floatDiffersR cl.quantity v.quantity u.rounding
      else floatDiffersD cl.quantity v.quantity 6
  | none => floatDiffersD cl.quantity v.quantity 6

/-- The field-by-field dirty check of the diff loop; note that the currency
used for the two monetary fields is the record's `company_currency_id` as it
stands before the write. -/
def updatePayload (env : Env) (cl : CommissionLine) (v : Vals) : UpdateVals :=
  { salespersonId :=
      if cl.salespersonId ≠ some v.salespersonId then some v.salespersonId else none
    invoiceId :=
      if cl.invoiceId ≠ some v.invoiceId then some v.invoiceId else none
    productId :=
      if cl.productId ≠ some v.productId then some v.productId else none
    quantity :=
      if qtyDiffers env cl v then some v.quantity else none
    commissionRate :=
      if floatDiffersD cl.commissionRate v.commissionRate 4 then some v.commissionRate
      else none
    commissionAmount :=
      match lookupCurrency env cl.companyId with
      | some c =>
          if !(currencyIsZero c (cl.commissionAmount - v.commissionAmount)) then
            some v.commissionAmount
          else none
      | none => none
    lineSubtotal :=
      match lookupCurrency env cl.companyId with
      | some c =>
          if !(currencyIsZero c (cl.lineSubtotal - v.lineSubtotal)) then
            some v.lineSubtotal
          else none
      | none => none
    companyId :=
      if cl.companyId ≠ some v.companyId then some v.companyId else none }

/-- The deletion re-check for an existing record whose source line id `k` is
absent from the eligibility map: delete when the line no longer exists, or its
move is not posted, or it is an invoice that is not paid. -/
def delCheckBad (env : Env) (k : ℕ) : Bool :=
  match lookupLine env k with
  | none => true
  | some l =>
      decide (l.move.state ≠ MoveState.posted) ||
      (decide (l.move.moveType = MoveType.outInvoice) &&
       decide (l.move.paymentState ≠ PayState.paid))

/-- The accumulator of the diff loop: the remaining eligibility map, the
update writes emitted so far (record id, payload) and `lines_to_unlink`. -/
structure DiffAcc where
  elig : List (ℕ × Vals)
  updates : List (ℕ × UpdateVals)
  toUnlink : List ℕ
deriving DecidableEq, Repr

/-- One iteration of the `for invoice_line_id, commission_line in
existing_map.items()` loop. -/
def diffStep (env : Env) (acc : DiffAcc) (e : ℕ × CommissionLine) : DiffAcc :=
  let r := dictPop acc.elig e.1
  match r.1 with
  | none =>
      if delCheckBad env e.1 then
        { elig := r.2, updates := acc.updates, toUnlink := acc.toUnlink ++ [e.2.id] }
      else
        { elig := r.2, updates := acc.updates, toUnlink := acc.toUnlink }
  | some v =>
      let p := updatePayload env e.2 v
      if p.hasAny then
        { elig := r.2, updates := acc.updates ++ [(e.2.id, p)], toUnlink := acc.toUnlink }
      else
        { elig := r.2, updates := acc.updates, toUnlink := acc.toUnlink }

/-- The whole diff phase. -/
def runDiff (env : Env) (st : State) : DiffAcc :=
  (existingMap st.commLines).foldl (diffStep env)
    { elig := buildEligMap env, updates := [], toUnlink := [] }

/-! ### Phase 3: apply -/

/-- A write operation against the mirrored store. -/
inductive WriteOp where
  | update (recId : ℕ) (p : UpdateVals)
  | unlink (ids : List ℕ)
  | createBatch (vs : List Vals)
deriving DecidableEq, Repr

/-- `create_vals[i:i+batch_size]` chunking, driven by a fuel argument so that
it evaluates by kernel reduction; `chunk` instantiates the fuel with the list
length, which suffices for any positive batch size. -/
def chunkAux {α : Type} (n : ℕ) : ℕ → List α → List (List α)
  | 0, _ => []
  | _, [] => []
  | fuel + 1, x :: xs => (x :: xs).take n :: chunkAux n fuel ((x :: xs).drop n)

/-- Split a list into consecutive batches of at most `n` elements. -/
def chunk {α : Type} (n : ℕ) (l : List α) : List (List α) :=
  chunkAux n l.length l

/-- The ordered list of write operations emitted by one run: the per-record
updates in diff order, then one bulk unlink (when any record is flagged), then
the creation batches of at most 100 records. -/
def runOps (env : Env) (st : State) : List WriteOp :=
  let d := runDiff env st
  d.updates.map (fun u => WriteOp.update u.1 u.2)
    ++ (if d.toUnlink.isEmpty then [] else [WriteOp.unlink d.toUnlink])
    ++ (chunk 100 (d.elig.map (fun e => e.2))).map WriteOp.createBatch

/-- `commission_line.write(updates)`: overwrite exactly the fields present in
the payload. -/
def applyUpdate (cl : CommissionLine) (p : UpdateVals) : CommissionLine :=
  { cl with
    salespersonId := match p.salespersonId with
      | some s => some s
      | none => cl.salespersonId
    invoiceId := match p.invoiceId with
      | some s => some s
      | none => cl.invoiceId
    productId := match p.productId with
      | some s => some s
      | none => cl.productId
    quantity := p.quantity.getD cl.quantity
    commissionRate := p.commissionRate.getD cl.commissionRate
    commissionAmount := p.commissionAmount.getD cl.commissionAmount
    lineSubtotal := p.lineSubtotal.getD cl.lineSubtotal
    companyId := match p.companyId with
      | some s => some s
      | none => cl.companyId }

/-- `commission_line_model.create(vals)` for one record: all vals fields are
stored, the database assigns the id. -/
def recordOfVals (i : ℕ) (v : Vals) : CommissionLine :=
  { id := i
    invoiceLineId := some v.invoiceLineId
    salespersonId := some v.salespersonId
    invoiceId := some v.invoiceId
    productId := some v.productId
    quantity := v.quantity
    commissionRate := v.commissionRate
    commissionAmount := v.commissionAmount
    lineSubtotal := v.lineSubtotal
    companyId := some v.companyId }

/-- Create one record per vals, with consecutive fresh ids from `start`. -/
def createRecords (start : ℕ) : List Vals → List CommissionLine
  | [] => []
  | v :: vs => recordOfVals start v :: createRecords (start + 1) vs

/-- Apply one write operation to the store. -/
def applyOp (st : State) (op : WriteOp) : State :=
  match op with
  | WriteOp.update rid p =>
      { st with commLines :=
          st.commLines.map (fun cl => if cl.id = rid then applyUpdate cl p else cl) }
  | WriteOp.unlink ids =>
      { st with commLines := st.commLines.filter (fun cl => !(ids.contains cl.id)) }
  | WriteOp.createBatch vs =>
      { commLines := st.commLines ++ createRecords st.nextId vs
        nextId := st.nextId + vs.length }

/-- Apply a list of write operations in order. -/
def applyOps (st : State) (ops : List WriteOp) : State :=
  ops.foldl applyOp st

/-- One full, successful run of `run_commission_sync`. -/
def run (env : Env) (st : State) : State :=
  applyOps st (runOps env st)

/-- The `try/except` wrapper of `run_commission_sync`: `fault = none` is a
clean run returning `True`; `fault = some k` models an unexpected exception
raised after `k` write operations have been applied — the method logs, keeps
the writes already applied (no rollback) and returns `False`. -/
def runSync (env : Env) (st : State) (fault : Option ℕ) : State × Bool :=
  match fault with
  | none => (run env st, true)
  | some k => (applyOps st ((runOps env st).take k), false)

/-! ### Well-formedness and spec-side predicates -/

/-- At most one commission record references any source line
(`source_line_id` uniqueness, spec section 3). -/
def uniqKeys (ls : List CommissionLine) : Prop :=
  (ls.filterMap (fun cl => cl.invoiceLineId)).Nodup

/-- Well-formedness of the read-only environment: database ids of source lines
are distinct, currency roundings are positive (Odoo requires a positive
`rounding` on currencies) and so are unit-of-measure roundings. -/
def EnvWF (env : Env) : Prop :=
  (env.lines.map (fun l => l.id)).Nodup ∧
  (∀ p ∈ env.currencies, 0 < p.2.rounding) ∧
  (∀ l ∈ env.lines, ∀ u, l.uom = some u → 0 < u.rounding)

/-- Well-formedness of the mirrored store: distinct record ids, all below the
next fresh id, and the uniqueness invariant. -/
def StateWF (st : State) : Prop :=
  (st.commLines.map (fun cl => cl.id)).Nodup ∧
  (∀ cl ∈ st.commLines, cl.id < st.nextId) ∧
  uniqKeys st.commLines

/-- The commission rate of the line's product, when the product and its
template exist. -/
def lineRate (l : MoveLine) : Option ℚ :=
  (l.product.bind (fun p => p.tmpl)).map (fun t => t.commissionRate)

/-- Modelled from the spec: the eligibility predicate of section 4.1 — posted
document, product line, product set, paid invoice or credit note (the latter
regardless of payment state), commission rate strictly positive. -/
def eligiblePred (l : MoveLine) : Prop :=
  l.move.state = MoveState.posted ∧
  l.displayType = LineKind.product ∧
  l.product.isSome = true ∧
  ((l.move.moveType = MoveType.outInvoice ∧ l.move.paymentState = PayState.paid) ∨
    l.move.moveType = MoveType.outRefund) ∧
  0 < (lineRate l).getD 0

instance (l : MoveLine) : Decidable (eligiblePred l) := by
  unfold eligiblePred
  exact inferInstance

instance (ls : List CommissionLine) : Decidable (uniqKeys ls) := by
  unfold uniqKeys
  exact inferInstance

instance (env : Env) : Decidable (EnvWF env) := by
  unfold EnvWF
  exact inferInstance

instance (st : State) : Decidable (StateWF st) := by
  unfold StateWF
  exact inferInstance

/-- Modelled from the spec (section 4.2): the quantity comparator — compare at
the source line's unit-of-measure rounding precision, with a fallback of six
decimal digits when no unit is available. -/
def specQtyDiffers (env : Env) (cl : CommissionLine) (v : Vals) : Bool :=
  match uomOf env cl with
  | some u => floatDiffersR cl.quantity v.quantity u.rounding
  | none => floatDiffersD cl.quantity v.quantity 6

/-- Whether a write operation touches the record with id `i`. -/
def opTargets (op : WriteOp) (i : ℕ) : Bool :=
  match op with
  | WriteOp.update rid _ => rid == i
  | WriteOp.unlink ids => ids.contains i
  | WriteOp.createBatch _ => false

/-- The update writes the diff loop emits for `entries` against the fixed
eligibility map `E` (closed form of the fold, used by the lemmas below). -/
def updatesOf (env : Env) (E : List (ℕ × Vals)) (entries : List (ℕ × CommissionLine)) :
    List (ℕ × UpdateVals) :=
  entries.filterMap (fun e =>
    match lookupD E e.1 with
    | some v =>
        let p := updatePayload env e.2 v
        if p.hasAny then some (e.2.id, p) else none
    | none => none)

/-- The record ids the diff loop flags for deletion (closed form). -/
def unlinksOf (env : Env) (E : List (ℕ × Vals)) (entries : List (ℕ × CommissionLine)) :
    List ℕ :=
  entries.filterMap (fun e =>
    match lookupD E e.1 with
    | some _ => none
    | none => if delCheckBad env e.1 then some e.2.id else none)

/-- Apply a list of update writes to one record (each write applies only when
the record id matches). -/
def applyList (ups : List (ℕ × UpdateVals)) (cl : CommissionLine) : CommissionLine :=
  ups.foldl (fun c u => if c.id = u.1 then applyUpdate c u.2 else c) cl

/-- The all-none update payload (no field written). -/
def emptyPayload : UpdateVals :=
  { salespersonId := none, invoiceId := none, productId := none, quantity := none
    commissionRate := none, commissionAmount := none, lineSubtotal := none
    companyId := none }

/-! ### Concrete data for witnesses and counterexamples -/

/-- A posted, paid customer invoice. -/
def moveW : Move :=
  { id := 10, state := MoveState.posted, moveType := MoveType.outInvoice
    paymentState := PayState.paid, invoiceUserId := some 7, companyId := 1 }

/-- An eligible product line on `moveW`: product 5 at rate 10 percent, quantity
2, subtotal 200. -/
def lineW : MoveLine :=
  { id := 1, move := moveW
    product := some { id := 5, tmpl := some { commissionRate := 10 } }
    displayType := LineKind.product, quantity := 2, priceSubtotal := 200, uom := none }

/-- An environment with the one eligible line and a cent-rounded currency for
company 1. -/
def envW : Env :=
  { lines := [lineW], currencies := [(1, { rounding := 1/100 })], envUserId := 99 }

/-- The empty store. -/
def stEmpty : State :=
  { commLines := [], nextId := 1 }

/-- The commission attributes the scan computes for `lineW`. -/
def valsW : Vals :=
  { salespersonId := 7, invoiceId := 10, invoiceLineId := 1, productId := 5
    quantity := 2, commissionRate := 10, commissionAmount := 20, lineSubtotal := 200
    companyId := 1 }

/-- The commission record mirroring `lineW` exactly. -/
def recW : CommissionLine :=
  { id := 1, invoiceLineId := some 1, salespersonId := some 7, invoiceId := some 10
    productId := some 5, quantity := 2, commissionRate := 10, commissionAmount := 20
    lineSubtotal := 200, companyId := some 1 }

/-- A store already holding `recW`. -/
def stW : State :=
  { commLines := [recW], nextId := 2 }

/-- `lineW` with its product's commission rate dropped to zero: still posted
and paid, but no longer eligible. -/
def lineRate0 : MoveLine :=
  { lineW with product := some { id := 5, tmpl := some { commissionRate := 0 } } }

/-- The environment after the rate drop. -/
def envRate0 : Env :=
  { envW with lines := [lineRate0] }

/-- An environment with a second company whose currency rounding is huge
(zero-tolerance 500). -/
def envCur : Env :=
  { lines := [lineW]
    currencies := [(1, { rounding := 1/100 }), (2, { rounding := 1000 })]
    envUserId := 99 }

/-- A record for `lineW` whose stored company is 2 and whose amount is off by
10: within company 2's tolerance, beyond company 1's. -/
def recCur : CommissionLine :=
  { recW with commissionAmount := 30, companyId := some 2 }

/-- The store holding `recCur`. -/
def stCur : State :=
  { commLines := [recCur], nextId := 2 }

/-- A line with subtotal 79.996 and rate 100 percent. -/
def lineAmt : MoveLine :=
  { id := 1, move := moveW
    product := some { id := 5, tmpl := some { commissionRate := 100 } }
    displayType := LineKind.product, quantity := 2, priceSubtotal := 79996/1000
    uom := none }

/-- The environment holding `lineAmt`. -/
def envAmt : Env :=
  { lines := [lineAmt], currencies := [(1, { rounding := 1/100 })], envUserId := 99 }

/-- A record for `lineAmt` with stale rate 99.99, amount 79.992 and subtotal
80: rate differs beyond 4 digits, amount and subtotal drift within the
currency tolerance. -/
def recAmt : CommissionLine :=
  { id := 1, invoiceLineId := some 1, salespersonId := some 7, invoiceId := some 10
    productId := some 5, quantity := 2, commissionRate := 9999/100
    commissionAmount := 79992/1000, lineSubtotal := 80, companyId := some 1 }

/-- The store holding `recAmt`. -/
def stAmt : State :=
  { commLines := [recAmt], nextId := 2 }

/-- A record whose `invoice_line_id` reference is unset. -/
def recOrphan : CommissionLine :=
  { id := 3, invoiceLineId := none, salespersonId := some 7, invoiceId := some 10
    productId := some 5, quantity := 1, commissionRate := 5, commissionAmount := 1
    lineSubtotal := 20, companyId := some 1 }

/-- A store holding both the orphan record and `recW`. -/
def stOrphan : State :=
  { commLines := [recOrphan, recW], nextId := 4 }

/-! ## Lemmas on the numeric primitives -/

theorem roundAway_zero : roundAway 0 = 0 := by
  norm_num [roundAway]

theorem floatIsZero_zero {r : ℚ} (hr : 0 < r) : floatIsZero 0 r = true := by
  simp [floatIsZero, floatRound, zero_div, roundAway_zero]
  exact hr

theorem floatDiffersR_self {r : ℚ} (x : ℚ) (hr : 0 < r) : floatDiffersR x x r = false := by
  simp [floatDiffersR, sub_self, floatIsZero_zero hr]

theorem digitsRounding_pos (d : ℕ) : 0 < digitsRounding d := by
  unfold digitsRounding
  positivity

theorem floatDiffersD_self (x : ℚ) (d : ℕ) : floatDiffersD x x d = false :=
  floatDiffersR_self x (digitsRounding_pos d)

theorem currencyIsZero_self_sub {c : Currency} (hc : 0 < c.rounding) (x : ℚ) :
    currencyIsZero c (x - x) = true := by
  rw [sub_self]
  exact floatIsZero_zero hc

/-! ## Lemmas on the dict operations -/

theorem keysOf_cons {α : Type} (e : ℕ × α) (m : List (ℕ × α)) :
    keysOf (e :: m) = e.1 :: keysOf m := rfl

theorem keysOf_append {α : Type} (a b : List (ℕ × α)) :
    keysOf (a ++ b) = keysOf a ++ keysOf b :=
  List.map_append _ a b

theorem mem_keysOf {α : Type} {m : List (ℕ × α)} {k : ℕ} :
    k ∈ keysOf m ↔ ∃ v, (k, v) ∈ m := by
  constructor
  · intro h
    rcases List.mem_map.mp h with ⟨e, he, hk⟩
    exact ⟨e.2, by  rwa [show (k, e.2) = e by  rw [← hk]]⟩
  · rintro ⟨v, hv⟩
    exact List.mem_map.mpr ⟨(k, v), hv, rfl⟩

theorem mem_keysOf_dictInsert {α : Type} {m : List (ℕ × α)} {k a : ℕ} {v : α} :
    a ∈ keysOf (dictInsert m k v) ↔ a = k ∨ a ∈ keysOf m := by
  induction m with
  | nil => simp [dictInsert, keysOf]
  | cons e rest ih =>
      by_cases h : e.1 = k
      · simp only [dictInsert, if_pos h, keysOf_cons, List.mem_cons]
        rw [← h]
        tauto
      · simp only [dictInsert, if_neg h, keysOf_cons, List.mem_cons, ih]
        tauto

theorem nodup_keysOf_dictInsert {α : Type} {m : List (ℕ × α)} {k : ℕ} {v : α}
    (h : (keysOf m).Nodup) : (keysOf (dictInsert m k v)).Nodup := by
  induction m with
  | nil => simp [dictInsert, keysOf]
  | cons e rest ih =>
      rw [keysOf_cons, List.nodup_cons] at h
      by_cases hk : e.1 = k
      · simp only [dictInsert, if_pos hk, keysOf_cons, List.nodup_cons]
        exact ⟨by  rw [← hk]; exact h.1, h.2⟩
      · simp only [dictInsert, if_neg hk, keysOf_cons, List.nodup_cons,
          mem_keysOf_dictInsert]
        exact ⟨by  tauto, ih h.2⟩

theorem dictInsert_of_notMem {α : Type} {m : List (ℕ × α)} {k : ℕ} {v : α}
    (h : k ∉ keysOf m) : dictInsert m k v = m ++ [(k, v)] := by
  induction m with
  | nil => rfl
  | cons e rest ih =>
      rw [keysOf_cons, List.mem_cons] at h
      push_neg at h
      have hk : ¬ e.1 = k := fun he => h.1 he.symm
      simp only [dictInsert, if_neg hk, List.cons_append]
      exact congrArg (List.cons _) (ih h.2)

theorem mem_of_mem_dictInsert {α : Type} {m : List (ℕ × α)} {k : ℕ} {v : α}
    {e : ℕ × α} (h : e ∈ dictInsert m k v) : e = (k, v) ∨ e ∈ m := by
  induction m with
  | nil => simpa [dictInsert] using h
  | cons e' rest ih =>
      by_cases hk : e'.1 = k
      · rw [dictInsert, if_pos hk] at h
        rcases List.mem_cons.mp h with h | h
        · exact Or.inl h
        · exact Or.inr (List.mem_cons_of_mem _ h)
      · rw [dictInsert, if_neg hk] at h
        rcases List.mem_cons.mp h with h | h
        · exact Or.inr (h ▸ List.mem_cons_self _ _)
        · rcases ih h with h | h
          · exact Or.inl h
          · exact Or.inr (List.mem_cons_of_mem _ h)

theorem lookupD_nil {α : Type} (k : ℕ) : lookupD ([] : List (ℕ × α)) k = none := rfl

theorem lookupD_cons {α : Type} (e : ℕ × α) (m : List (ℕ × α)) (k : ℕ) :
    lookupD (e :: m) k = if e.1 = k then some e.2 else lookupD m k := by
  by_cases h : e.1 = k
  · simp [lookupD, List.find?_cons, h]
  · simp [lookupD, List.find?_cons, h]

theorem dictPop_fst {α : Type} (m : List (ℕ × α)) (k : ℕ) :
    (dictPop m k).1 = lookupD m k := by
  induction m with
  | nil => rfl
  | cons e rest ih =>
      rw [lookupD_cons]
      by_cases h : e.1 = k
      · simp [dictPop, h]
      · simp [dictPop, h, ih]

theorem dictPop_snd_of_nodup {α : Type} {m : List (ℕ × α)} {k : ℕ}
    (h : (keysOf m).Nodup) :
    (dictPop m k).2 = m.filter (fun e => !(e.1 == k)) := by
  induction m with
  | nil => rfl
  | cons e rest ih =>
      rw [keysOf_cons, List.nodup_cons] at h
      by_cases hk : e.1 = k
      · have hrest : rest.filter (fun e => !(e.1 == k)) = rest := by
          apply List.filter_eq_self.mpr
          intro e' he'
          have : e'.1 ≠ k := by
            intro hcon
            exact h.1 (hk ▸ hcon ▸ mem_keysOf.mpr ⟨e'.2, he'⟩)
          simpa using this
        simp [dictPop, hk, List.filter_cons, hrest]
      · simp [dictPop, hk, List.filter_cons, ih h.2]

theorem lookupD_eq_none {α : Type} {m : List (ℕ × α)} {k : ℕ} :
    lookupD m k = none ↔ k ∉ keysOf m := by
  induction m with
  | nil => simp [lookupD_nil, keysOf]
  | cons e rest ih =>
      rw [lookupD_cons, keysOf_cons]
      by_cases h : e.1 = k
      · simp [h]
      · simp only [if_neg h, ih, List.mem_cons]
        constructor
        · intro hn hor
          rcases hor with hor | hor
          · exact h hor.symm
          · exact hn hor
        · intro hn hmem
          exact hn (Or.inr hmem)

theorem mem_of_lookupD_eq_some {α : Type} {m : List (ℕ × α)} {k : ℕ} {v : α}
    (h : lookupD m k = some v) : (k, v) ∈ m := by
  induction m with
  | nil => simp [lookupD_nil] at h
  | cons e rest ih =>
      rw [lookupD_cons] at h
      by_cases hk : e.1 = k
      · rw [if_pos hk] at h
        injection h with h2
        rw [← hk, ← h2]
        exact List.mem_cons_self _ _
      · rw [if_neg hk] at h
        exact List.mem_cons_of_mem _ (ih h)

theorem lookupD_eq_some_of_mem_nodup {α : Type} {m : List (ℕ × α)} {k : ℕ} {v : α}
    (hn : (keysOf m).Nodup) (h : (k, v) ∈ m) : lookupD m k = some v := by
  induction m with
  | nil => simp at h
  | cons e rest ih =>
      rw [keysOf_cons, List.nodup_cons] at hn
      rw [lookupD_cons]
      rcases List.mem_cons.mp h with h | h
      · rw [if_pos (by  rw [← h])]
        rw [← h]
      · have hk : e.1 ≠ k := by
          intro hcon
          exact hn.1 (hcon ▸ mem_keysOf.mpr ⟨v, h⟩)
        rw [if_neg hk]
        exact ih hn.2 h

theorem lookupD_isSome_of_mem_keysOf {α : Type} {m : List (ℕ × α)} {k : ℕ}
    (h : k ∈ keysOf m) : ∃ v, lookupD m k = some v := by
  cases hl : lookupD m k with
  | none => exact absurd (lookupD_eq_none.mp hl) (by  simpa using h)
  | some v => exact ⟨v, rfl⟩

theorem lookupD_filter_ne {α : Type} {m : List (ℕ × α)} {k a : ℕ} (h : a ≠ k) :
    lookupD (m.filter (fun e => !(e.1 == k))) a = lookupD m a := by
  induction m with
  | nil => rfl
  | cons e rest ih =>
      by_cases hk : e.1 = k
      · have hb : (!(e.1 == k)) = false := by  simpa using hk
        rw [List.filter_cons, hb]
        simp only [Bool.false_eq_true, if_false]
        rw [ih, lookupD_cons, if_neg (fun hc : e.1 = a => h (hc ▸ hk))]
      · have hb : (!(e.1 == k)) = true := by  simpa using hk
        rw [List.filter_cons, hb]
        simp only [if_true]
        rw [lookupD_cons, lookupD_cons]
        by_cases ha : e.1 = a
        · rw [if_pos ha, if_pos ha]
        · rw [if_neg ha, if_neg ha, ih]

theorem foldl_dictStep_nodup {α β : Type} (f : β → Option (ℕ × α)) (ls : List β) :
    ∀ acc : List (ℕ × α), (keysOf acc).Nodup →
      (keysOf (ls.foldl (dictStep f) acc)).Nodup := by
  induction ls with
  | nil => exact fun acc h => h
  | cons b ls ih =>
      intro acc h
      rw [List.foldl_cons]
      apply ih
      unfold dictStep
      cases f b with
      | none => exact h
      | some kv => exact nodup_keysOf_dictInsert h

theorem nodup_keysOf_dictOfList {α β : Type} (f : β → Option (ℕ × α)) (ls : List β) :
    (keysOf (dictOfList f ls)).Nodup :=
  foldl_dictStep_nodup f ls [] (by  simp [keysOf])

theorem mem_foldl_dictStep {α β : Type} (f : β → Option (ℕ × α)) (ls : List β) :
    ∀ (acc : List (ℕ × α)) (e : ℕ × α), e ∈ ls.foldl (dictStep f) acc →
      e ∈ acc ∨ ∃ b ∈ ls, f b = some e := by
  induction ls with
  | nil => exact fun acc e h => Or.inl h
  | cons b ls ih =>
      intro acc e h
      rw [List.foldl_cons] at h
      rcases ih _ e h with h | ⟨b', hb', hfb⟩
      · unfold dictStep at h
        cases hfb : f b with
        | none =>
            rw [hfb] at h
            exact Or.inl h
        | some kv =>
            rw [hfb] at h
            rcases mem_of_mem_dictInsert h with h | h
            · exact Or.inr ⟨b, List.mem_cons_self _ _, by  rw [hfb, h]⟩
            · exact Or.inl h
      · exact Or.inr ⟨b', List.mem_cons_of_mem _ hb', hfb⟩

theorem mem_of_mem_dictOfList {α β : Type} {f : β → Option (ℕ × α)} {ls : List β}
    {e : ℕ × α} (h : e ∈ dictOfList f ls) : ∃ b ∈ ls, f b = some e := by
  rcases mem_foldl_dictStep f ls [] e h with h | h
  · simp at h
  · exact h

theorem foldl_dictStep_eq_append {α β : Type} (f : β → Option (ℕ × α)) (ls : List β) :
    ∀ acc : List (ℕ × α), (keysOf (acc ++ ls.filterMap f)).Nodup →
      ls.foldl (dictStep f) acc = acc ++ ls.filterMap f := by
  induction ls with
  | nil => intro acc _; simp
  | cons b ls ih =>
      intro acc h
      cases hfb : f b with
      | none =>
          rw [List.filterMap_cons, hfb] at h
          have hstep : dictStep f acc b = acc := by
            unfold dictStep
            rw [hfb]
          rw [List.foldl_cons, hstep, List.filterMap_cons, hfb]
          exact ih acc h
      | some kv =>
          rw [List.filterMap_cons, hfb] at h
          have hnotin : kv.1 ∉ keysOf acc := by
            rw [keysOf_append] at h
            rcases List.nodup_append.mp h with ⟨-, -, hd⟩
            intro hmem
            exact hd hmem (by  rw [keysOf_cons]; exact List.mem_cons_self _ _)
          have hstep : dictStep f acc b = acc ++ [kv] := by
            unfold dictStep
            rw [hfb]
            exact dictInsert_of_notMem hnotin
          have hre : acc ++ kv :: List.filterMap f ls = (acc ++ [kv]) ++ List.filterMap f ls := by
            simp
          rw [List.foldl_cons, hstep, List.filterMap_cons, hfb, hre]
          apply ih
          rw [← hre]
          exact h

theorem dictOfList_eq_filterMap {α β : Type} {f : β → Option (ℕ × α)} {ls : List β}
    (h : (keysOf (ls.filterMap f)).Nodup) : dictOfList f ls = ls.filterMap f := by
  have := foldl_dictStep_eq_append f ls [] (by  simpa using h)
  simpa [dictOfList] using this

/-! ## The two maps in closed form -/

theorem keysOf_eligFM (env : Env) (ls : List MoveLine) :
    keysOf (ls.filterMap (fun l => (computeVals env l).map (fun v => (l.id, v)))) =
      (ls.filter (fun l => (computeVals env l).isSome)).map (fun l => l.id) := by
  induction ls with
  | nil => rfl
  | cons l ls ih =>
      cases hc : computeVals env l with
      | none => simp [List.filterMap_cons, hc, List.filter_cons, ih, keysOf_cons]
      | some v => simp [List.filterMap_cons, hc, List.filter_cons, ih, keysOf_cons]

theorem invSearch_iff {l : MoveLine} :
    invSearch l = true ↔
      l.move.state = MoveState.posted ∧ l.move.moveType = MoveType.outInvoice ∧
      l.move.paymentState = PayState.paid ∧ l.product.isSome = true ∧
      l.displayType ≠ LineKind.section ∧ l.displayType ≠ LineKind.note := by
  simp [invSearch, and_assoc]

theorem refundSearch_iff {l : MoveLine} :
    refundSearch l = true ↔
      l.move.state = MoveState.posted ∧ l.move.moveType = MoveType.outRefund ∧
      l.product.isSome = true ∧
      l.displayType ≠ LineKind.section ∧ l.displayType ≠ LineKind.note := by
  simp [refundSearch, and_assoc]

theorem not_inv_and_refund (l : MoveLine) :
    ¬ (invSearch l = true ∧ refundSearch l = true) := by
  rintro ⟨h1, h2⟩
  rw [invSearch_iff] at h1
  rw [refundSearch_iff] at h2
  rw [h1.2.1] at h2
  exact absurd h2.2.1 (by  simp)

theorem nodup_ids_eligibleLines {env : Env} (h : EnvWF env) :
    ((eligibleLines env).map (fun l => l.id)).Nodup := by
  obtain ⟨hids, -, -⟩ := h
  unfold eligibleLines
  rw [List.map_append, List.nodup_append]
  refine ⟨List.Nodup.sublist (List.Sublist.map _ (List.filter_sublist _)) hids,
    List.Nodup.sublist (List.Sublist.map _ (List.filter_sublist _)) hids, ?_⟩
  intro a ha1 ha2
  rcases List.mem_map.mp ha1 with ⟨l1, hl1, rfl⟩
  rcases List.mem_map.mp ha2 with ⟨l2, hl2, hid⟩
  rcases List.mem_filter.mp hl1 with ⟨hm1, hs1⟩
  rcases List.mem_filter.mp hl2 with ⟨hm2, hs2⟩
  have : l2 = l1 := List.inj_on_of_nodup_map hids hm2 hm1 hid
  subst this
  exact not_inv_and_refund l2 ⟨hs1, hs2⟩

theorem mem_eligibleLines (env : Env) {l : MoveLine} :
    l ∈ eligibleLines env ↔
      l ∈ env.lines ∧ (invSearch l = true ∨ refundSearch l = true) := by
  unfold eligibleLines
  rw [List.mem_append, List.mem_filter, List.mem_filter]
  tauto

theorem buildEligMap_eq {env : Env} (h : EnvWF env) :
    buildEligMap env =
      (eligibleLines env).filterMap (fun l => (computeVals env l).map (fun v => (l.id, v))) := by
  apply dictOfList_eq_filterMap
  rw [keysOf_eligFM]
  exact List.Nodup.sublist (List.Sublist.map _ (List.filter_sublist _))
    (nodup_ids_eligibleLines h)

theorem keysOf_existFM (ls : List CommissionLine) :
    keysOf (ls.filterMap (fun cl => cl.invoiceLineId.map (fun k => (k, cl)))) =
      ls.filterMap (fun cl => cl.invoiceLineId) := by
  induction ls with
  | nil => rfl
  | cons cl ls ih =>
      cases hc : cl.invoiceLineId with
      | none => simp [List.filterMap_cons, hc, ih, keysOf_cons]
      | some k => simp [List.filterMap_cons, hc, ih, keysOf_cons]

theorem existingMap_eq {ls : List CommissionLine} (h : uniqKeys ls) :
    existingMap ls = ls.filterMap (fun cl => cl.invoiceLineId.map (fun k => (k, cl))) := by
  apply dictOfList_eq_filterMap
  rw [keysOf_existFM]
  exact h

theorem mem_existingMap {ls : List CommissionLine} (h : uniqKeys ls)
    {k : ℕ} {cl : CommissionLine} :
    (k, cl) ∈ existingMap ls ↔ cl ∈ ls ∧ cl.invoiceLineId = some k := by
  rw [existingMap_eq h]
  rw [List.mem_filterMap]
  constructor
  · rintro ⟨b, hb, hfb⟩
    rcases Option.map_eq_some'.mp hfb with ⟨a, ha, heq⟩
    have hb2 : b = cl := congrArg Prod.snd heq
    have ha2 : a = k := congrArg Prod.fst heq
    subst hb2
    subst ha2
    exact ⟨hb, ha⟩
  · rintro ⟨hcl, hk⟩
    exact ⟨cl, hcl, by  simp [hk]⟩

theorem mem_buildEligMap {env : Env} (h : EnvWF env) {k : ℕ} {v : Vals} :
    (k, v) ∈ buildEligMap env ↔
      ∃ l ∈ eligibleLines env, l.id = k ∧ computeVals env l = some v := by
  rw [buildEligMap_eq h, List.mem_filterMap]
  constructor
  · rintro ⟨l, hl, hfl⟩
    rcases Option.map_eq_some'.mp hfl with ⟨v', hv', heq⟩
    have h1 : l.id = k := congrArg Prod.fst heq
    have h2 : v' = v := congrArg Prod.snd heq
    subst h2
    exact ⟨l, hl, h1, hv'⟩
  · rintro ⟨l, hl, hid, hv⟩
    exact ⟨l, hl, by  simp [hv, hid]⟩

/-! ## Lemmas on computed values and lookups -/

theorem lineKind_product_iff (k : LineKind) :
    (k ≠ LineKind.section ∧ k ≠ LineKind.note) ↔ k = LineKind.product := by
  cases k <;> simp

theorem computeVals_isSome (env : Env) (l : MoveLine) :
    (computeVals env l).isSome = true ↔ 0 < (lineRate l).getD 0 := by
  unfold computeVals lineRate
  cases hp : l.product with
  | none => simp
  | some p =>
      cases ht : p.tmpl with
      | none => simp [ht]
      | some t =>
          by_cases hr : t.commissionRate ≤ 0
          · simp [ht, hr, not_lt.mpr hr]
          · simp [ht, hr, lt_of_not_le hr]

theorem computeVals_spec {env : Env} {l : MoveLine} {v : Vals}
    (h : computeVals env l = some v) :
    v.invoiceLineId = l.id ∧ v.companyId = l.move.companyId ∧
    v.invoiceId = l.move.id ∧ v.quantity = l.quantity ∧
    v.lineSubtotal = l.priceSubtotal ∧
    v.salespersonId = l.move.invoiceUserId.getD env.envUserId ∧
    v.commissionAmount = (if l.move.moveType = MoveType.outRefund
      then -(v.lineSubtotal * (v.commissionRate / 100))
      else v.lineSubtotal * (v.commissionRate / 100)) ∧
    0 < v.commissionRate := by
  cases hp : l.product with
  | none =>
      simp only [computeVals, hp] at h
      exact Option.noConfusion h
  | some p =>
      cases ht : p.tmpl with
      | none =>
          simp only [computeVals, hp, ht] at h
          exact Option.noConfusion h
      | some t =>
          by_cases hr : t.commissionRate ≤ 0
          · simp only [computeVals, hp, ht, if_pos hr] at h
            exact Option.noConfusion h
          · simp only [computeVals, hp, ht, if_neg hr] at h
            injection h with hv
            subst hv
            refine ⟨rfl, rfl, rfl, rfl, rfl, rfl, ?_, lt_of_not_le hr⟩
            by_cases hm : l.move.moveType = MoveType.outRefund
            · simp [hm]
            · simp [hm]

theorem find?_id_eq_some {ls : List MoveLine}
    (hids : (ls.map (fun l => l.id)).Nodup) {l : MoveLine} (hl : l ∈ ls) :
    ls.find? (fun l' => l'.id == l.id) = some l := by
  induction ls with
  | nil => simp at hl
  | cons a rest ih =>
      rw [List.map_cons, List.nodup_cons] at hids
      rcases List.mem_cons.mp hl with rfl | hl2
      · rw [List.find?_cons_of_pos _ (by  simp)]
      · have hne : ¬ (a.id == l.id) = true := by
          simp only [beq_iff_eq]
          intro hc
          exact hids.1 (hc ▸ List.mem_map_of_mem _ hl2)
        have hstep : List.find? (fun l' => l'.id == l.id) (a :: rest) =
            List.find? (fun l' => l'.id == l.id) rest :=
          List.find?_cons_of_neg rest hne
        rw [hstep]
        exact ih hids.2 hl2

theorem lookupLine_self {env : Env} (h : EnvWF env) {l : MoveLine}
    (hl : l ∈ env.lines) : lookupLine env l.id = some l :=
  find?_id_eq_some h.1 hl

theorem lookupLine_mem {env : Env} {i : ℕ} {l : MoveLine}
    (h : lookupLine env i = some l) : l ∈ env.lines ∧ l.id = i := by
  unfold lookupLine at h
  refine ⟨List.mem_of_find?_eq_some h, ?_⟩
  have hp := List.find?_some h
  simpa using hp

theorem lookupCurrency_pos {env : Env} (h : EnvWF env) {c : Option ℕ}
    {cur : Currency} (hc : lookupCurrency env c = some cur) : 0 < cur.rounding := by
  obtain ⟨-, hcur, -⟩ := h
  unfold lookupCurrency at hc
  cases c with
  | none => simp at hc
  | some cid =>
      simp only [Option.some_bind] at hc
      rcases Option.map_eq_some'.mp hc with ⟨p, hp, hpe⟩
      rw [← hpe]
      exact hcur p (List.mem_of_find?_eq_some hp)

theorem uomOf_pos {env : Env} (h : EnvWF env) {cl : CommissionLine} {u : Uom}
    (hu : uomOf env cl = some u) : 0 < u.rounding := by
  obtain ⟨-, -, huom⟩ := h
  unfold uomOf at hu
  rcases Option.bind_eq_some.mp hu with ⟨l, hl, hlu⟩
  rcases Option.bind_eq_some.mp hl with ⟨k, -, hlk⟩
  exact huom l (lookupLine_mem hlk).1 u hlu

theorem eligiblePred_iff (l : MoveLine) :
    eligiblePred l ↔
      ((invSearch l = true ∨ refundSearch l = true) ∧ 0 < (lineRate l).getD 0) := by
  rw [show (invSearch l = true ↔ _) from invSearch_iff,
    show (refundSearch l = true ↔ _) from refundSearch_iff]
  unfold eligiblePred
  constructor
  · rintro ⟨h1, h2, h3, h4, h5⟩
    have hk := (lineKind_product_iff l.displayType).mpr h2
    rcases h4 with ⟨hi, hp⟩ | hr
    · exact ⟨Or.inl ⟨h1, hi, hp, h3, hk.1, hk.2⟩, h5⟩
    · exact ⟨Or.inr ⟨h1, hr, h3, hk.1, hk.2⟩, h5⟩
  · rintro ⟨h, h5⟩
    rcases h with ⟨h1, hi, hp, h3, hs, hn⟩ | ⟨h1, hr, h3, hs, hn⟩
    · exact ⟨h1, (lineKind_product_iff _).mp ⟨hs, hn⟩, h3, Or.inl ⟨hi, hp⟩, h5⟩
    · exact ⟨h1, (lineKind_product_iff _).mp ⟨hs, hn⟩, h3, Or.inr hr, h5⟩

/-! ## Closed form of the diff phase -/

theorem updatesOf_cons (env : Env) (E : List (ℕ × Vals)) (e : ℕ × CommissionLine)
    (es : List (ℕ × CommissionLine)) :
    updatesOf env E (e :: es) =
      (match lookupD E e.1 with
        | some v =>
            if (updatePayload env e.2 v).hasAny then [(e.2.id, updatePayload env e.2 v)]
            else []
        | none => []) ++ updatesOf env E es := by
  unfold updatesOf
  rw [List.filterMap_cons]
  cases hL : lookupD E e.1 with
  | none => simp
  | some v =>
      by_cases hany : (updatePayload env e.2 v).hasAny = true
      · simp [hany]
      · simp [hany]

theorem unlinksOf_cons (env : Env) (E : List (ℕ × Vals)) (e : ℕ × CommissionLine)
    (es : List (ℕ × CommissionLine)) :
    unlinksOf env E (e :: es) =
      (match lookupD E e.1 with
        | some _ => []
        | none => if delCheckBad env e.1 then [e.2.id] else []) ++ unlinksOf env E es := by
  unfold unlinksOf
  rw [List.filterMap_cons]
  cases hL : lookupD E e.1 with
  | none =>
      by_cases hbad : delCheckBad env e.1 = true
      · simp [hbad]
      · simp [hbad]
  | some v => simp

theorem updatesOf_congr (env : Env) {E1 E2 : List (ℕ × Vals)}
    {entries : List (ℕ × CommissionLine)}
    (h : ∀ e ∈ entries, lookupD E2 e.1 = lookupD E1 e.1) :
    updatesOf env E2 entries = updatesOf env E1 entries := by
  induction entries with
  | nil => rfl
  | cons e es ih =>
      rw [updatesOf_cons, updatesOf_cons, h e (List.mem_cons_self _ _),
        ih (fun x hx => h x (List.mem_cons_of_mem _ hx))]

theorem unlinksOf_congr (env : Env) {E1 E2 : List (ℕ × Vals)}
    {entries : List (ℕ × CommissionLine)}
    (h : ∀ e ∈ entries, lookupD E2 e.1 = lookupD E1 e.1) :
    unlinksOf env E2 entries = unlinksOf env E1 entries := by
  induction entries with
  | nil => rfl
  | cons e es ih =>
      rw [unlinksOf_cons, unlinksOf_cons, h e (List.mem_cons_self _ _),
        ih (fun x hx => h x (List.mem_cons_of_mem _ hx))]

theorem diffStep_eq (env : Env) (acc : DiffAcc) (e : ℕ × CommissionLine)
    (h1 : (keysOf acc.elig).Nodup) :
    diffStep env acc e =
      { elig := acc.elig.filter (fun x => !(x.1 == e.1)),
        updates := acc.updates ++ (match lookupD acc.elig e.1 with
          | some v =>
              if (updatePayload env e.2 v).hasAny then [(e.2.id, updatePayload env e.2 v)]
              else []
          | none => []),
        toUnlink := acc.toUnlink ++ (match lookupD acc.elig e.1 with
          | some _ => []
          | none => if delCheckBad env e.1 then [e.2.id] else []) } := by
  cases hL : lookupD acc.elig e.1 with
  | none =>
      by_cases hbad : delCheckBad env e.1 = true
      · simp [diffStep, dictPop_fst, dictPop_snd_of_nodup h1, hL, hbad]
      · simp [diffStep, dictPop_fst, dictPop_snd_of_nodup h1, hL, hbad]
  | some v =>
      by_cases hany : (updatePayload env e.2 v).hasAny = true
      · simp [diffStep, dictPop_fst, dictPop_snd_of_nodup h1, hL, hany]
      · simp [diffStep, dictPop_fst, dictPop_snd_of_nodup h1, hL, hany]

theorem diffFold_spec (env : Env) (entries : List (ℕ × CommissionLine)) :
    ∀ acc : DiffAcc, (keysOf acc.elig).Nodup → (keysOf entries).Nodup →
      entries.foldl (diffStep env) acc =
        { elig := acc.elig.filter (fun x => decide (x.1 ∉ keysOf entries)),
          updates := acc.updates ++ updatesOf env acc.elig entries,
          toUnlink := acc.toUnlink ++ unlinksOf env acc.elig entries } := by
  induction entries with
  | nil =>
      intro acc h1 h2
      cases acc
      simp [updatesOf, unlinksOf, keysOf]
  | cons e es ih =>
      intro acc h1 h2
      rw [keysOf_cons, List.nodup_cons] at h2
      rw [List.foldl_cons, diffStep_eq env acc e h1]
      have h1' : (keysOf (acc.elig.filter (fun x => !(x.1 == e.1)))).Nodup :=
        List.Nodup.sublist (List.Sublist.map _ (List.filter_sublist _)) h1
      have hcong : ∀ x ∈ es,
          lookupD (acc.elig.filter (fun y => !(y.1 == e.1))) x.1 = lookupD acc.elig x.1 := by
        intro x hx
        apply lookupD_filter_ne
        intro hc
        exact h2.1 (hc ▸ List.mem_map_of_mem _ hx)
      rw [ih _ h1' h2.2]
      have helig : (acc.elig.filter (fun x => !(x.1 == e.1))).filter
            (fun x => decide (x.1 ∉ keysOf es)) =
          acc.elig.filter (fun x => decide (x.1 ∉ keysOf (e :: es))) := by
        rw [List.filter_filter]
        apply List.filter_congr
        intro x hx
        by_cases he : x.1 = e.1
        · simp [he, keysOf_cons]
        · by_cases hes : x.1 ∈ keysOf es
          · simp [he, hes, keysOf_cons]
          · simp [he, hes, keysOf_cons]
      have hups : updatesOf env (acc.elig.filter (fun y => !(y.1 == e.1))) es =
          updatesOf env acc.elig es := updatesOf_congr env hcong
      have hunl : unlinksOf env (acc.elig.filter (fun y => !(y.1 == e.1))) es =
          unlinksOf env acc.elig es := unlinksOf_congr env hcong
      rw [hups, hunl, helig, updatesOf_cons, unlinksOf_cons, List.append_assoc,
        List.append_assoc]

theorem runDiff_spec (env : Env) (st : State) :
    runDiff env st =
      { elig := (buildEligMap env).filter
          (fun x => decide (x.1 ∉ keysOf (existingMap st.commLines))),
        updates := updatesOf env (buildEligMap env) (existingMap st.commLines),
        toUnlink := unlinksOf env (buildEligMap env) (existingMap st.commLines) } := by
  unfold runDiff
  rw [diffFold_spec env (existingMap st.commLines) _
    (nodup_keysOf_dictOfList _ _) (nodup_keysOf_dictOfList _ _)]
  simp

/-! ## Closed form of the apply phase -/

theorem applyOps_cons (st : State) (op : WriteOp) (ops : List WriteOp) :
    applyOps st (op :: ops) = applyOps (applyOp st op) ops := rfl

theorem applyOps_append (st : State) (l1 l2 : List WriteOp) :
    applyOps st (l1 ++ l2) = applyOps (applyOps st l1) l2 :=
  List.foldl_append _ _ _ _

theorem applyUpdate_id (cl : CommissionLine) (p : UpdateVals) :
    (applyUpdate cl p).id = cl.id := rfl

theorem applyUpdate_invoiceLineId (cl : CommissionLine) (p : UpdateVals) :
    (applyUpdate cl p).invoiceLineId = cl.invoiceLineId := rfl

theorem applyList_cons (u : ℕ × UpdateVals) (ups : List (ℕ × UpdateVals))
    (cl : CommissionLine) :
    applyList (u :: ups) cl =
      applyList ups (if cl.id = u.1 then applyUpdate cl u.2 else cl) := rfl

theorem applyList_id (ups : List (ℕ × UpdateVals)) (cl : CommissionLine) :
    (applyList ups cl).id = cl.id := by
  induction ups generalizing cl with
  | nil => rfl
  | cons u ups ih =>
      rw [applyList_cons, ih]
      by_cases h : cl.id = u.1
      · rw [if_pos h, applyUpdate_id]
      · rw [if_neg h]

theorem applyList_invoiceLineId (ups : List (ℕ × UpdateVals)) (cl : CommissionLine) :
    (applyList ups cl).invoiceLineId = cl.invoiceLineId := by
  induction ups generalizing cl with
  | nil => rfl
  | cons u ups ih =>
      rw [applyList_cons, ih]
      by_cases h : cl.id = u.1
      · rw [if_pos h, applyUpdate_invoiceLineId]
      · rw [if_neg h]

theorem applyList_of_notMem {ups : List (ℕ × UpdateVals)} {cl : CommissionLine}
    (h : cl.id ∉ keysOf ups) : applyList ups cl = cl := by
  induction ups with
  | nil => rfl
  | cons u ups ih =>
      rw [keysOf_cons, List.mem_cons] at h
      push_neg at h
      rw [applyList_cons, if_neg h.1]
      exact ih h.2

theorem applyList_of_mem {ups : List (ℕ × UpdateVals)} {cl : CommissionLine}
    {i : ℕ} {p : UpdateVals} (hn : (keysOf ups).Nodup) (hm : (i, p) ∈ ups)
    (hi : cl.id = i) : applyList ups cl = applyUpdate cl p := by
  induction ups with
  | nil => simp at hm
  | cons u ups ih =>
      rw [keysOf_cons, List.nodup_cons] at hn
      rcases List.mem_cons.mp hm with rfl | hm2
      · rw [applyList_cons, if_pos hi]
        apply applyList_of_notMem
        rw [applyUpdate_id, hi]
        exact hn.1
      · have hne : cl.id ≠ u.1 := by
          rw [hi]
          intro hc
          exact hn.1 (hc ▸ mem_keysOf.mpr ⟨p, hm2⟩)
        rw [applyList_cons, if_neg hne]
        exact ih hn.2 hm2

theorem applyOps_updates (ups : List (ℕ × UpdateVals)) :
    ∀ st : State, applyOps st (ups.map (fun u => WriteOp.update u.1 u.2)) =
      { st with commLines := st.commLines.map (applyList ups) } := by
  induction ups with
  | nil =>
      have h1 : ∀ ls : List CommissionLine, ls.map (applyList []) = ls := by
        intro ls
        induction ls with
        | nil => rfl
        | cons c cs ih => simp [ih, applyList]
      intro st
      cases st
      simp [applyOps, h1]
  | cons u ups ih =>
      intro st
      rw [List.map_cons, applyOps_cons, ih]
      congr 1
      rw [show applyOp st (WriteOp.update u.1 u.2) =
        { st with commLines :=
            st.commLines.map (fun cl => if cl.id = u.1 then applyUpdate cl u.2 else cl) }
        from rfl]
      rw [List.map_map]
      rfl

theorem applyOps_unlink (ids : List ℕ) (st : State) :
    applyOps st (if ids.isEmpty then [] else [WriteOp.unlink ids]) =
      { st with commLines := st.commLines.filter (fun cl => !(ids.contains cl.id)) } := by
  cases ids with
  | nil =>
      have hself : st.commLines.filter (fun cl => !(([] : List ℕ).contains cl.id)) =
          st.commLines :=
        List.filter_eq_self.mpr (fun a _ => rfl)
      cases st
      simp only [List.isEmpty_nil, if_true, applyOps, List.foldl_nil]
      rw [hself]
  | cons i ids =>
      rfl

theorem createRecords_length (start : ℕ) (vs : List Vals) :
    (createRecords start vs).length = vs.length := by
  induction vs generalizing start with
  | nil => rfl
  | cons v vs ih => simp [createRecords, ih]

theorem createRecords_append (start : ℕ) (a b : List Vals) :
    createRecords start (a ++ b) =
      createRecords start a ++ createRecords (start + a.length) b := by
  induction a generalizing start with
  | nil => simp [createRecords]
  | cons v a ih =>
      have harith : start + 1 + a.length = start + (a.length + 1) := by  omega
      simp only [List.cons_append, createRecords, List.length_cons, List.append_eq]
      rw [ih (start + 1), harith]

theorem applyOps_creates (batches : List (List Vals)) :
    ∀ st : State, applyOps st (batches.map WriteOp.createBatch) =
      { commLines := st.commLines ++ createRecords st.nextId batches.flatten
        nextId := st.nextId + batches.flatten.length } := by
  induction batches with
  | nil =>
      intro st
      cases st
      simp [applyOps, createRecords]
  | cons b bs ih =>
      intro st
      rw [List.map_cons, applyOps_cons, ih]
      rw [show applyOp st (WriteOp.createBatch b) =
        { commLines := st.commLines ++ createRecords st.nextId b
          nextId := st.nextId + b.length } from rfl]
      simp only [List.flatten_cons, createRecords_append, List.length_append]
      rw [List.append_assoc]
      congr 1
      omega

theorem chunkAux_join {α : Type} (n : ℕ) (hn : 0 < n) :
    ∀ (fuel : ℕ) (l : List α), l.length ≤ fuel → (chunkAux n fuel l).flatten = l := by
  intro fuel
  induction fuel with
  | zero =>
      intro l hl
      rw [List.length_eq_zero.mp (Nat.le_zero.mp hl)]
      rfl
  | succ fuel ih =>
      intro l hl
      cases l with
      | nil => rfl
      | cons x xs =>
          rw [show chunkAux n (fuel + 1) (x :: xs) =
            (x :: xs).take n :: chunkAux n fuel ((x :: xs).drop n) from rfl]
          rw [List.flatten_cons, ih _ ?_, List.take_append_drop]
          simp only [List.length_drop, List.length_cons]
          rw [List.length_cons] at hl
          omega

theorem chunk_join {α : Type} (n : ℕ) (hn : 0 < n) (l : List α) :
    (chunk n l).flatten = l :=
  chunkAux_join n hn l.length l le_rfl

theorem chunkAux_batches {α : Type} (n : ℕ) (hn : 0 < n) :
    ∀ (fuel : ℕ) (l : List α), ∀ b ∈ chunkAux n fuel l, b.length ≤ n ∧ b ≠ [] := by
  intro fuel
  induction fuel with
  | zero => intro l b hb; simp [chunkAux] at hb
  | succ fuel ih =>
      intro l b hb
      cases l with
      | nil => simp [chunkAux] at hb
      | cons x xs =>
          rw [show chunkAux n (fuel + 1) (x :: xs) =
            (x :: xs).take n :: chunkAux n fuel ((x :: xs).drop n) from rfl] at hb
          rcases List.mem_cons.mp hb with rfl | hb2
          · constructor
            · rw [List.length_take]
              omega
            · cases n with
              | zero => omega
              | succ m => simp
          · exact ih _ b hb2

theorem chunk_batches {α : Type} (n : ℕ) (hn : 0 < n) (l : List α) :
    ∀ b ∈ chunk n l, b.length ≤ n ∧ b ≠ [] :=
  chunkAux_batches n hn l.length l

/-! ## Closed form of a whole run -/

theorem run_eq (env : Env) (st : State) :
    run env st =
      { commLines :=
          ((st.commLines.map (applyList (runDiff env st).updates)).filter
            (fun cl => !((runDiff env st).toUnlink.contains cl.id)))
          ++ createRecords st.nextId ((runDiff env st).elig.map (fun e => e.2))
        nextId := st.nextId + ((runDiff env st).elig.map (fun e => e.2)).length } := by
  simp only [run, runOps]
  rw [applyOps_append, applyOps_append, applyOps_updates, applyOps_unlink,
    applyOps_creates, chunk_join 100 (by  omega)]

theorem mem_run_iff (env : Env) (st : State) (cl' : CommissionLine) :
    cl' ∈ (run env st).commLines ↔
      ((∃ cl ∈ st.commLines, cl' = applyList (runDiff env st).updates cl ∧
          (runDiff env st).toUnlink.contains cl'.id = false)
        ∨ cl' ∈ createRecords st.nextId ((runDiff env st).elig.map (fun e => e.2))) := by
  rw [run_eq]
  show cl' ∈ _ ++ _ ↔ _
  rw [List.mem_append, List.mem_filter]
  constructor
  · rintro (⟨hm, hp⟩ | hc)
    · rcases List.mem_map.mp hm with ⟨cl, hcl, heq⟩
      exact Or.inl ⟨cl, hcl, heq.symm, by  simpa using hp⟩
    · exact Or.inr hc
  · rintro (⟨cl, hcl, heq, hp⟩ | hc)
    · exact Or.inl ⟨List.mem_map.mpr ⟨cl, hcl, heq.symm⟩, by  simpa using hp⟩
    · exact Or.inr hc

theorem mem_createRecords_ids {start : ℕ} {vs : List Vals} {cl : CommissionLine}
    (h : cl ∈ createRecords start vs) : start ≤ cl.id ∧ cl.id < start + vs.length := by
  induction vs generalizing start with
  | nil => simp [createRecords] at h
  | cons v vs ih =>
      rcases List.mem_cons.mp h with rfl | h2
      · simp [recordOfVals]
      · have := ih h2
        constructor
        · omega
        · simp only [List.length_cons]
          omega

theorem mem_createRecords_val {start : ℕ} {vs : List Vals} {cl : CommissionLine}
    (h : cl ∈ createRecords start vs) : ∃ v ∈ vs, ∃ i, cl = recordOfVals i v := by
  induction vs generalizing start with
  | nil => simp [createRecords] at h
  | cons v vs ih =>
      rcases List.mem_cons.mp h with rfl | h2
      · exact ⟨v, List.mem_cons_self _ _, start, rfl⟩
      · rcases ih h2 with ⟨v', hv', i, hi⟩
        exact ⟨v', List.mem_cons_of_mem _ hv', i, hi⟩

theorem createRecords_mem_of_val {vs : List Vals} {v : Vals} (hv : v ∈ vs) (start : ℕ) :
    ∃ cl ∈ createRecords start vs, cl = recordOfVals cl.id v := by
  induction vs generalizing start with
  | nil => simp at hv
  | cons v' vs ih =>
      rcases List.mem_cons.mp hv with rfl | h2
      · exact ⟨recordOfVals start v, List.mem_cons_self _ _, rfl⟩
      · rcases ih h2 (start + 1) with ⟨cl, hcl, heq⟩
        exact ⟨cl, List.mem_cons_of_mem _ hcl, heq⟩

theorem createRecords_map_id (start : ℕ) (vs : List Vals) :
    (createRecords start vs).map (fun cl => cl.id) = List.range' start vs.length := by
  induction vs generalizing start with
  | nil => rfl
  | cons v vs ih => simp [createRecords, ih, List.range'_succ, recordOfVals]

theorem createRecords_map_key (start : ℕ) (vs : List Vals) :
    (createRecords start vs).map (fun cl => cl.invoiceLineId) =
      vs.map (fun v => some v.invoiceLineId) := by
  induction vs generalizing start with
  | nil => rfl
  | cons v vs ih => simp [createRecords, ih, recordOfVals]

theorem buildEligMap_key {env : Env} {k : ℕ} {v : Vals}
    (h : (k, v) ∈ buildEligMap env) :
    v.invoiceLineId = k ∧ ∃ l ∈ eligibleLines env, l.id = k ∧ computeVals env l = some v := by
  rcases mem_of_mem_dictOfList h with ⟨l, hl, hfl⟩
  rcases Option.map_eq_some'.mp hfl with ⟨v', hv', heq⟩
  have h1 : l.id = k := congrArg Prod.fst heq
  have h2 : v' = v := congrArg Prod.snd heq
  subst h2
  exact ⟨(computeVals_spec hv').1.trans h1, l, hl, h1, hv'⟩

theorem mem_updatesOf {env : Env} {E : List (ℕ × Vals)}
    {entries : List (ℕ × CommissionLine)} {i : ℕ} {p : UpdateVals} :
    (i, p) ∈ updatesOf env E entries ↔
      ∃ e ∈ entries, ∃ v, lookupD E e.1 = some v ∧ p = updatePayload env e.2 v ∧
        p.hasAny = true ∧ i = e.2.id := by
  unfold updatesOf
  rw [List.mem_filterMap]
  constructor
  · rintro ⟨e, he, hfe⟩
    cases hL : lookupD E e.1 with
    | none => rw [hL] at hfe; simp at hfe
    | some v =>
        rw [hL] at hfe
        by_cases hany : (updatePayload env e.2 v).hasAny = true
        · simp only [hany, if_true] at hfe
          injection hfe with h1
          have hi : e.2.id = i := congrArg Prod.fst h1
          have hp : updatePayload env e.2 v = p := congrArg Prod.snd h1
          exact ⟨e, he, v, hL, hp.symm, hp ▸ hany, hi.symm⟩
        · simp [hany] at hfe
  · rintro ⟨e, he, v, hL, hp, hany, hi⟩
    refine ⟨e, he, ?_⟩
    rw [hL]
    simp only [← hp, hany, if_true, hi]

theorem mem_unlinksOf {env : Env} {E : List (ℕ × Vals)}
    {entries : List (ℕ × CommissionLine)} {i : ℕ} :
    i ∈ unlinksOf env E entries ↔
      ∃ e ∈ entries, lookupD E e.1 = none ∧ delCheckBad env e.1 = true ∧ i = e.2.id := by
  unfold unlinksOf
  rw [List.mem_filterMap]
  constructor
  · rintro ⟨e, he, hfe⟩
    cases hL : lookupD E e.1 with
    | some v => rw [hL] at hfe; simp at hfe
    | none =>
        rw [hL] at hfe
        by_cases hbad : delCheckBad env e.1 = true
        · simp only [hbad, if_true] at hfe
          injection hfe with h1
          exact ⟨e, he, hL, hbad, h1.symm⟩
        · simp [hbad] at hfe
  · rintro ⟨e, he, hL, hbad, hi⟩
    refine ⟨e, he, ?_⟩
    rw [hL]
    simp [hbad, hi]

theorem values_existingMap {ls : List CommissionLine} (h : uniqKeys ls) :
    (existingMap ls).map (fun e => e.2) = ls.filter (fun cl => cl.invoiceLineId.isSome) := by
  rw [existingMap_eq h]
  induction ls with
  | nil => rfl
  | cons cl ls ih =>
      cases hc : cl.invoiceLineId with
      | none =>
          have h2 : uniqKeys ls := by
            unfold uniqKeys at h ⊢
            rwa [List.filterMap_cons, hc] at h
          simp [List.filterMap_cons, hc, List.filter_cons, ih h2]
      | some k =>
          have h2 : uniqKeys ls := by
            unfold uniqKeys at h ⊢
            rw [List.filterMap_cons, hc] at h
            exact (List.nodup_cons.mp h).2
          simp [List.filterMap_cons, hc, List.filter_cons, ih h2]

theorem entry_ids_nodup {st : State} (hS : StateWF st) :
    ((existingMap st.commLines).map (fun e => e.2.id)).Nodup := by
  have hv := values_existingMap hS.2.2
  have h1 : (existingMap st.commLines).map (fun e => e.2.id) =
      ((existingMap st.commLines).map (fun e => e.2)).map (fun cl => cl.id) := by
    rw [List.map_map]
    rfl
  rw [h1, hv]
  exact List.Nodup.sublist (List.Sublist.map _ (List.filter_sublist _)) hS.1

theorem mem_keysOf_updatesOf {env : Env} {E : List (ℕ × Vals)}
    {entries : List (ℕ × CommissionLine)} {i : ℕ}
    (h : i ∈ keysOf (updatesOf env E entries)) : i ∈ entries.map (fun e => e.2.id) := by
  rcases mem_keysOf.mp h with ⟨p, hp⟩
  rcases mem_updatesOf.mp hp with ⟨e, he, -, -, -, -, hi⟩
  exact List.mem_map.mpr ⟨e, he, hi.symm⟩

theorem nodup_keysOf_updatesOf {env : Env} {E : List (ℕ × Vals)} :
    ∀ {entries : List (ℕ × CommissionLine)},
      ((entries.map (fun e => e.2.id)).Nodup) →
      (keysOf (updatesOf env E entries)).Nodup := by
  intro entries
  induction entries with
  | nil => intro h; simp [updatesOf, keysOf]
  | cons e es ih =>
      intro h
      rw [List.map_cons, List.nodup_cons] at h
      rw [updatesOf_cons]
      cases hL : lookupD E e.1 with
      | none => simpa using ih h.2
      | some v =>
          by_cases hany : (updatePayload env e.2 v).hasAny = true
          · simp only [hany, if_true, List.singleton_append]
            rw [keysOf_cons, List.nodup_cons]
            exact ⟨fun hc => h.1 (mem_keysOf_updatesOf hc), ih h.2⟩
          · simpa [hany] using ih h.2

/-! ## Survivors, deletions and preservation of well-formedness -/

theorem contains_iff_mem {l : List ℕ} {a : ℕ} : l.contains a = true ↔ a ∈ l := by
  induction l with
  | nil => simp
  | cons b l ih => simp

theorem id_inj_commLines {st : State} (hS : StateWF st) {a b : CommissionLine}
    (ha : a ∈ st.commLines) (hb : b ∈ st.commLines) (hid : a.id = b.id) : a = b :=
  List.inj_on_of_nodup_map hS.1 ha hb hid

theorem keysOf_existingMap {ls : List CommissionLine} (h : uniqKeys ls) :
    keysOf (existingMap ls) = ls.filterMap (fun cl => cl.invoiceLineId) := by
  rw [existingMap_eq h, keysOf_existFM]

theorem applyUpdate_of_empty {cl : CommissionLine} {p : UpdateVals}
    (h : p.hasAny = false) : applyUpdate cl p = cl := by
  cases p
  unfold UpdateVals.hasAny at h
  simp only [Bool.or_eq_false_iff, Option.not_isSome, Option.isNone_iff_eq_none] at h
  obtain ⟨⟨⟨⟨⟨⟨⟨h1, h2⟩, h3⟩, h4⟩, h5⟩, h6⟩, h7⟩, h8⟩ := h
  subst h1
  subst h2
  subst h3
  subst h4
  subst h5
  subst h6
  subst h7
  subst h8
  rfl

theorem survivor_eq_of_matched {env : Env} {st : State} (hS : StateWF st)
    {cl : CommissionLine} (hcl : cl ∈ st.commLines) {k : ℕ}
    (hk : cl.invoiceLineId = some k) {v : Vals}
    (hv : lookupD (buildEligMap env) k = some v) :
    applyList (runDiff env st).updates cl = applyUpdate cl (updatePayload env cl v) := by
  have hnodup : (keysOf (runDiff env st).updates).Nodup := by
    rw [runDiff_spec]
    exact nodup_keysOf_updatesOf (entry_ids_nodup hS)
  have hentry : (k, cl) ∈ existingMap st.commLines :=
    (mem_existingMap hS.2.2).mpr ⟨hcl, hk⟩
  by_cases hany : (updatePayload env cl v).hasAny = true
  · have hmem : (cl.id, updatePayload env cl v) ∈ (runDiff env st).updates := by
      rw [runDiff_spec]
      exact mem_updatesOf.mpr ⟨(k, cl), hentry, v, hv, rfl, hany, rfl⟩
    exact applyList_of_mem hnodup hmem rfl
  · rw [applyUpdate_of_empty (Bool.not_eq_true _ ▸ hany), applyList_of_notMem]
    intro hc
    rw [runDiff_spec] at hc
    rcases mem_keysOf.mp hc with ⟨p, hp⟩
    rcases mem_updatesOf.mp hp with ⟨e, he, v', hv', hpv, hpa, hid⟩
    have he2 := (mem_existingMap hS.2.2).mp he
    have : e.2 = cl := id_inj_commLines hS he2.1 hcl hid.symm
    subst this
    have hkk : e.1 = k := by
      rw [he2.2] at hk
      injection hk
    rw [hkk, hv] at hv'
    injection hv' with hv2
    rw [hv2] at hany
    rw [hpv] at hpa
    exact hany hpa

theorem survivor_eq_of_unmatched {env : Env} {st : State} (hS : StateWF st)
    {cl : CommissionLine} (hcl : cl ∈ st.commLines)
    (h : ∀ k, cl.invoiceLineId = some k → lookupD (buildEligMap env) k = none) :
    applyList (runDiff env st).updates cl = cl := by
  apply applyList_of_notMem
  intro hc
  rw [runDiff_spec] at hc
  rcases mem_keysOf.mp hc with ⟨p, hp⟩
  rcases mem_updatesOf.mp hp with ⟨e, he, v', hv', -, -, hid⟩
  have he2 := (mem_existingMap hS.2.2).mp he
  have : e.2 = cl := id_inj_commLines hS he2.1 hcl hid.symm
  subst this
  rw [h e.1 he2.2] at hv'
  exact Option.noConfusion hv'

theorem not_unlinked_of_matched {env : Env} {st : State} (hS : StateWF st)
    {cl : CommissionLine} (hcl : cl ∈ st.commLines) {k : ℕ}
    (hk : cl.invoiceLineId = some k) {v : Vals}
    (hv : lookupD (buildEligMap env) k = some v) :
    cl.id ∉ (runDiff env st).toUnlink := by
  intro hc
  rw [runDiff_spec] at hc
  rcases mem_unlinksOf.mp hc with ⟨e, he, hnone, -, hid⟩
  have he2 := (mem_existingMap hS.2.2).mp he
  have : e.2 = cl := id_inj_commLines hS he2.1 hcl hid.symm
  subst this
  have hkk : e.1 = k := by
    rw [he2.2] at hk
    injection hk
  rw [hkk, hv] at hnone
  exact Option.noConfusion hnone

theorem not_unlinked_of_orphan {env : Env} {st : State} (hS : StateWF st)
    {cl : CommissionLine} (hcl : cl ∈ st.commLines)
    (hk : cl.invoiceLineId = none) :
    cl.id ∉ (runDiff env st).toUnlink := by
  intro hc
  rw [runDiff_spec] at hc
  rcases mem_unlinksOf.mp hc with ⟨e, he, -, -, hid⟩
  have he2 := (mem_existingMap hS.2.2).mp he
  have : e.2 = cl := id_inj_commLines hS he2.1 hcl hid.symm
  subst this
  rw [he2.2] at hk
  exact Option.noConfusion hk

theorem not_updated_of_orphan {env : Env} {st : State} (hS : StateWF st)
    {cl : CommissionLine} (hcl : cl ∈ st.commLines)
    (hk : cl.invoiceLineId = none) :
    applyList (runDiff env st).updates cl = cl := by
  apply applyList_of_notMem
  intro hc
  rw [runDiff_spec] at hc
  rcases mem_keysOf.mp hc with ⟨p, hp⟩
  rcases mem_updatesOf.mp hp with ⟨e, he, -, -, -, -, hid⟩
  have he2 := (mem_existingMap hS.2.2).mp he
  have : e.2 = cl := id_inj_commLines hS he2.1 hcl hid.symm
  subst this
  rw [he2.2] at hk
  exact Option.noConfusion hk

theorem not_unlinked_of_good {env : Env} {st : State} (hS : StateWF st)
    {cl : CommissionLine} (hcl : cl ∈ st.commLines) {k : ℕ}
    (hk : cl.invoiceLineId = some k)
    (hgood : delCheckBad env k = false) :
    cl.id ∉ (runDiff env st).toUnlink := by
  intro hc
  rw [runDiff_spec] at hc
  rcases mem_unlinksOf.mp hc with ⟨e, he, -, hbad, hid⟩
  have he2 := (mem_existingMap hS.2.2).mp he
  have : e.2 = cl := id_inj_commLines hS he2.1 hcl hid.symm
  subst this
  have hkk : e.1 = k := by
    rw [he2.2] at hk
    injection hk
  rw [hkk, hgood] at hbad
  exact Bool.noConfusion hbad

theorem unlinked_of_bad {env : Env} {st : State} (hS : StateWF st)
    {cl : CommissionLine} (hcl : cl ∈ st.commLines) {k : ℕ}
    (hk : cl.invoiceLineId = some k)
    (hnone : lookupD (buildEligMap env) k = none)
    (hbad : delCheckBad env k = true) :
    cl.id ∈ (runDiff env st).toUnlink := by
  rw [runDiff_spec]
  exact mem_unlinksOf.mpr ⟨(k, cl), (mem_existingMap hS.2.2).mpr ⟨hcl, hk⟩, hnone, hbad, rfl⟩

theorem createRecords_filterMap_key (start : ℕ) (vs : List Vals) :
    (createRecords start vs).filterMap (fun cl => cl.invoiceLineId) =
      vs.map (fun v => v.invoiceLineId) := by
  induction vs generalizing start with
  | nil => rfl
  | cons v vs ih => simp [createRecords, recordOfVals, List.filterMap_cons, ih]

theorem elig_sub_buildEligMap {env : Env} {st : State} {e : ℕ × Vals}
    (h : e ∈ (runDiff env st).elig) :
    e ∈ buildEligMap env ∧ e.1 ∉ keysOf (existingMap st.commLines) := by
  rw [runDiff_spec] at h
  have := List.mem_filter.mp h
  exact ⟨this.1, by  simpa using this.2⟩

theorem keysOf_elig_nodup (env : Env) (st : State) :
    (keysOf (runDiff env st).elig).Nodup := by
  rw [runDiff_spec]
  exact List.Nodup.sublist (List.Sublist.map _ (List.filter_sublist _))
    (nodup_keysOf_dictOfList _ _)

theorem elig_vals_keys (env : Env) (st : State) :
    ((runDiff env st).elig.map (fun e => e.2)).map (fun v => v.invoiceLineId) =
      keysOf (runDiff env st).elig := by
  rw [List.map_map]
  apply List.map_congr_left
  intro e he
  exact (buildEligMap_key (elig_sub_buildEligMap he).1).1

theorem run_preserves_StateWF {env : Env} {st : State} (hS : StateWF st) :
    StateWF (run env st) := by
  rw [run_eq]
  set U := (runDiff env st).updates with hU
  set D := (runDiff env st).toUnlink with hD
  set V := (runDiff env st).elig.map (fun e => e.2) with hV
  have hsurv_ids : ((st.commLines.map (applyList U)).map (fun cl => cl.id)) =
      st.commLines.map (fun cl => cl.id) := by
    rw [List.map_map]
    apply List.map_congr_left
    intro cl _
    exact applyList_id U cl
  refine ⟨?_, ?_, ?_⟩
  · show (List.map _ (_ ++ _)).Nodup
    rw [List.map_append, List.nodup_append]
    refine ⟨?_, ?_, ?_⟩
    · exact List.Nodup.sublist
        (List.Sublist.map _ (List.filter_sublist _)) (hsurv_ids ▸ hS.1)
    · rw [createRecords_map_id]
      exact List.nodup_range' _ _
    · intro a ha hb
      rcases List.mem_map.mp ha with ⟨cl, hcl, rfl⟩
      rcases List.mem_filter.mp hcl with ⟨hcl2, -⟩
      rcases List.mem_map.mp hcl2 with ⟨cl0, hcl0, rfl⟩
      rw [createRecords_map_id] at hb
      rw [List.mem_range'_1] at hb
      rw [applyList_id] at hb
      exact absurd hb.1 (by  have := hS.2.1 cl0 hcl0; omega)
  · intro cl hcl
    change cl.id < st.nextId + V.length
    rcases List.mem_append.mp hcl with h | h
    · rcases List.mem_filter.mp h with ⟨h2, -⟩
      rcases List.mem_map.mp h2 with ⟨cl0, hcl0, rfl⟩
      rw [applyList_id]
      have := hS.2.1 cl0 hcl0
      omega
    · have := mem_createRecords_ids h
      omega
  · show uniqKeys (_ ++ _)
    unfold uniqKeys
    rw [List.filterMap_append, List.nodup_append]
    have hsurv_sub : List.Sublist
        ((List.filter (fun cl => !(D.contains cl.id))
          (st.commLines.map (applyList U))).filterMap (fun cl => cl.invoiceLineId))
        (st.commLines.filterMap (fun cl => cl.invoiceLineId)) := by
      have h1 : (st.commLines.map (applyList U)).filterMap (fun cl => cl.invoiceLineId) =
          st.commLines.filterMap (fun cl => cl.invoiceLineId) := by
        rw [List.filterMap_map]
        apply List.filterMap_congr
        intro cl _
        show (applyList U cl).invoiceLineId = cl.invoiceLineId
        exact applyList_invoiceLineId U cl
      exact h1 ▸ List.Sublist.filterMap _ (List.filter_sublist _)
    refine ⟨List.Nodup.sublist hsurv_sub hS.2.2, ?_, ?_⟩
    · rw [createRecords_filterMap_key, elig_vals_keys]
      exact keysOf_elig_nodup env st
    · intro a ha hb
      rw [createRecords_filterMap_key, elig_vals_keys] at hb
      have hmem1 : a ∈ st.commLines.filterMap (fun cl => cl.invoiceLineId) :=
        hsurv_sub.mem ha
      rcases List.mem_filterMap.mp hmem1 with ⟨cl0, hcl0, hk0⟩
      rcases mem_keysOf.mp hb with ⟨v, hv⟩
      have := (elig_sub_buildEligMap hv).2
      apply this
      rw [keysOf_existingMap hS.2.2]
      exact List.mem_filterMap.mpr ⟨cl0, hcl0, hk0⟩

/-! ## Bridging helpers for the claims -/

theorem delCheckBad_iff {env : Env} {k : ℕ} :
    delCheckBad env k = true ↔
      (lookupLine env k = none ∨
        ∃ l, lookupLine env k = some l ∧
          (l.move.state ≠ MoveState.posted ∨
            (l.move.moveType = MoveType.outInvoice ∧
              l.move.paymentState ≠ PayState.paid))) := by
  unfold delCheckBad
  cases hL : lookupLine env k with
  | none => simp
  | some l => simp [hL]

theorem elig_keys_iff {env : Env} {l : MoveLine} (hwf : EnvWF env)
    (hl : l ∈ env.lines) :
    l.id ∈ keysOf (buildEligMap env) ↔ eligiblePred l := by
  rw [buildEligMap_eq hwf, keysOf_eligFM, eligiblePred_iff]
  constructor
  · intro h
    rcases List.mem_map.mp h with ⟨l', hl', hid⟩
    rcases List.mem_filter.mp hl' with ⟨hmem, hsome⟩
    rcases (mem_eligibleLines env).mp hmem with ⟨hl'env, hsearch⟩
    have heq : l' = l := List.inj_on_of_nodup_map hwf.1 hl'env hl hid
    subst heq
    exact ⟨hsearch, (computeVals_isSome env l').mp hsome⟩
  · rintro ⟨hsearch, hrate⟩
    exact List.mem_map.mpr ⟨l,
      List.mem_filter.mpr ⟨(mem_eligibleLines env).mpr ⟨hl, hsearch⟩,
        (computeVals_isSome env l).mpr hrate⟩, rfl⟩

theorem qtyDiffers_refl {env : Env} (hwf : EnvWF env) {cl : CommissionLine} {v : Vals}
    (h : cl.quantity = v.quantity) : qtyDiffers env cl v = false := by
  unfold qtyDiffers
  cases hu : uomOf env cl with
  | none =>
      rw [h]
      exact floatDiffersD_self _ _
  | some u =>
      show (if u.rounding ≠ 0 then floatDiffersR cl.quantity v.quantity u.rounding
        else floatDiffersD cl.quantity v.quantity 6) = false
      by_cases hr : u.rounding ≠ 0
      · rw [if_pos hr, h]
        exact floatDiffersR_self _ (uomOf_pos hwf hu)
      · rw [if_neg hr, h]
        exact floatDiffersD_self _ _

theorem qtyDiffers_congr {env : Env} {cl cl' : CommissionLine} {v : Vals}
    (hk : cl'.invoiceLineId = cl.invoiceLineId) (hq : cl'.quantity = cl.quantity) :
    qtyDiffers env cl' v = qtyDiffers env cl v := by
  unfold qtyDiffers uomOf
  rw [hk, hq]

theorem qtyDiffers_eq_spec {env : Env} (hwf : EnvWF env) (cl : CommissionLine)
    (v : Vals) : qtyDiffers env cl v = specQtyDiffers env cl v := by
  unfold qtyDiffers specQtyDiffers
  cases hu : uomOf env cl with
  | none => rfl
  | some u =>
      show (if u.rounding ≠ 0 then floatDiffersR cl.quantity v.quantity u.rounding
        else floatDiffersD cl.quantity v.quantity 6) =
        floatDiffersR cl.quantity v.quantity u.rounding
      rw [if_pos (ne_of_gt (uomOf_pos hwf hu))]

theorem payload_amount_eq {env : Env} {cl : CommissionLine} {v : Vals} {a : ℚ}
    (h : (updatePayload env cl v).commissionAmount = some a) :
    a = v.commissionAmount := by
  simp only [updatePayload] at h
  cases hc : lookupCurrency env cl.companyId with
  | none =>
      rw [hc] at h
      exact Option.noConfusion h
  | some c =>
      rw [hc] at h
      by_cases ht : currencyIsZero c (cl.commissionAmount - v.commissionAmount) = true
      · simp [ht] at h
      · simp only [ht] at h
        simp at h
        exact h.symm

theorem applyUpdate_salespersonId {cl : CommissionLine} {v : Vals} {env : Env} :
    (applyUpdate cl (updatePayload env cl v)).salespersonId = some v.salespersonId := by
  by_cases h : cl.salespersonId = some v.salespersonId
  · show (match (updatePayload env cl v).salespersonId with
      | some s => some s
      | none => cl.salespersonId) = some v.salespersonId
    simp only [updatePayload, if_neg (not_not_intro h)]
    exact h
  · show (match (updatePayload env cl v).salespersonId with
      | some s => some s
      | none => cl.salespersonId) = some v.salespersonId
    simp only [updatePayload, if_pos h]

theorem applyUpdate_invoiceId2 {cl : CommissionLine} {v : Vals} {env : Env} :
    (applyUpdate cl (updatePayload env cl v)).invoiceId = some v.invoiceId := by
  by_cases h : cl.invoiceId = some v.invoiceId
  · show (match (updatePayload env cl v).invoiceId with
      | some s => some s
      | none => cl.invoiceId) = some v.invoiceId
    simp only [updatePayload, if_neg (not_not_intro h)]
    exact h
  · show (match (updatePayload env cl v).invoiceId with
      | some s => some s
      | none => cl.invoiceId) = some v.invoiceId
    simp only [updatePayload, if_pos h]

theorem applyUpdate_productId2 {cl : CommissionLine} {v : Vals} {env : Env} :
    (applyUpdate cl (updatePayload env cl v)).productId = some v.productId := by
  by_cases h : cl.productId = some v.productId
  · show (match (updatePayload env cl v).productId with
      | some s => some s
      | none => cl.productId) = some v.productId
    simp only [updatePayload, if_neg (not_not_intro h)]
    exact h
  · show (match (updatePayload env cl v).productId with
      | some s => some s
      | none => cl.productId) = some v.productId
    simp only [updatePayload, if_pos h]

theorem applyUpdate_companyId2 {cl : CommissionLine} {v : Vals} {env : Env} :
    (applyUpdate cl (updatePayload env cl v)).companyId = some v.companyId := by
  by_cases h : cl.companyId = some v.companyId
  · show (match (updatePayload env cl v).companyId with
      | some s => some s
      | none => cl.companyId) = some v.companyId
    simp only [updatePayload, if_neg (not_not_intro h)]
    exact h
  · show (match (updatePayload env cl v).companyId with
      | some s => some s
      | none => cl.companyId) = some v.companyId
    simp only [updatePayload, if_pos h]

/-! ## Stability of the dirty-check after a write -/

theorem payload_stable {env : Env} (hwf : EnvWF env) {cl : CommissionLine} {v : Vals}
    (hcur2 : lookupCurrency env cl.companyId = lookupCurrency env (some v.companyId)) :
    updatePayload env (applyUpdate cl (updatePayload env cl v)) v = emptyPayload := by
  set cl1 := applyUpdate cl (updatePayload env cl v) with hcl1
  have hsp : cl1.salespersonId = some v.salespersonId := applyUpdate_salespersonId
  have hinv : cl1.invoiceId = some v.invoiceId := applyUpdate_invoiceId2
  have hprod : cl1.productId = some v.productId := applyUpdate_productId2
  have hcomp : cl1.companyId = some v.companyId := applyUpdate_companyId2
  have hkey : cl1.invoiceLineId = cl.invoiceLineId := applyUpdate_invoiceLineId _ _
  have hq : qtyDiffers env cl1 v = false := by
    by_cases hqd : qtyDiffers env cl v = true
    · have hq1 : cl1.quantity = v.quantity := by
        rw [hcl1]
        show ((updatePayload env cl v).quantity).getD cl.quantity = v.quantity
        simp [updatePayload, hqd]
      exact qtyDiffers_refl hwf hq1
    · have hq1 : cl1.quantity = cl.quantity := by
        rw [hcl1]
        show ((updatePayload env cl v).quantity).getD cl.quantity = cl.quantity
        simp [updatePayload, hqd]
      rw [qtyDiffers_congr hkey hq1]
      exact Bool.eq_false_iff.mpr hqd
  have hr : floatDiffersD cl1.commissionRate v.commissionRate 4 = false := by
    by_cases hrd : floatDiffersD cl.commissionRate v.commissionRate 4 = true
    · have hr1 : cl1.commissionRate = v.commissionRate := by
        rw [hcl1]
        show ((updatePayload env cl v).commissionRate).getD cl.commissionRate = _
        simp [updatePayload, hrd]
      rw [hr1]
      exact floatDiffersD_self _ _
    · have hr1 : cl1.commissionRate = cl.commissionRate := by
        rw [hcl1]
        show ((updatePayload env cl v).commissionRate).getD cl.commissionRate = _
        simp [updatePayload, hrd]
      rw [hr1]
      exact Bool.eq_false_iff.mpr hrd
  have hc1 : lookupCurrency env cl1.companyId = lookupCurrency env cl.companyId := by
    rw [hcomp, ← hcur2]
  cases hcc : lookupCurrency env cl.companyId with
  | none =>
      have ha1 : cl1.commissionAmount = cl.commissionAmount := by
        rw [hcl1]
        show ((updatePayload env cl v).commissionAmount).getD cl.commissionAmount = _
        simp [updatePayload, hcc]
      have hcc2 : lookupCurrency env (some v.companyId) = none := by
        rw [← hcur2]
        exact hcc
      simp [updatePayload, emptyPayload, hsp, hinv, hprod, hcomp, hq, hr, hcc2]
  | some c =>
      have hpos : 0 < c.rounding := lookupCurrency_pos hwf hcc
      have hiz : currencyIsZero c (cl1.commissionAmount - v.commissionAmount) = true := by
        by_cases had : currencyIsZero c (cl.commissionAmount - v.commissionAmount) = true
        · have ha1 : cl1.commissionAmount = cl.commissionAmount := by
            rw [hcl1]
            show ((updatePayload env cl v).commissionAmount).getD cl.commissionAmount = _
            simp [updatePayload, hcc, had]
          rw [ha1]
          exact had
        · have ha1 : cl1.commissionAmount = v.commissionAmount := by
            rw [hcl1]
            show ((updatePayload env cl v).commissionAmount).getD cl.commissionAmount = _
            simp [updatePayload, hcc, had]
          rw [ha1]
          exact currencyIsZero_self_sub hpos _
      have hsz : currencyIsZero c (cl1.lineSubtotal - v.lineSubtotal) = true := by
        by_cases had : currencyIsZero c (cl.lineSubtotal - v.lineSubtotal) = true
        · have ha1 : cl1.lineSubtotal = cl.lineSubtotal := by
            rw [hcl1]
            show ((updatePayload env cl v).lineSubtotal).getD cl.lineSubtotal = _
            simp [updatePayload, hcc, had]
          rw [ha1]
          exact had
        · have ha1 : cl1.lineSubtotal = v.lineSubtotal := by
            rw [hcl1]
            show ((updatePayload env cl v).lineSubtotal).getD cl.lineSubtotal = _
            simp [updatePayload, hcc, had]
          rw [ha1]
          exact currencyIsZero_self_sub hpos _
      have hcc2 : lookupCurrency env (some v.companyId) = some c := by
        rw [← hcur2]
        exact hcc
      simp [updatePayload, emptyPayload, hsp, hinv, hprod, hcomp, hq, hr, hcc2,
        hiz, hsz]

theorem payload_fresh {env : Env} (hwf : EnvWF env) (i : ℕ) (v : Vals) :
    updatePayload env (recordOfVals i v) v = emptyPayload := by
  have hq : qtyDiffers env (recordOfVals i v) v = false := qtyDiffers_refl hwf rfl
  have hr : floatDiffersD (recordOfVals i v).commissionRate v.commissionRate 4 = false :=
    floatDiffersD_self _ _
  cases hcc : lookupCurrency env (some v.companyId) with
  | none =>
      simp [updatePayload, emptyPayload, recordOfVals, hcc]
      exact ⟨hq, floatDiffersD_self _ _⟩
  | some c =>
      have hpos : 0 < c.rounding := lookupCurrency_pos hwf hcc
      simp [updatePayload, emptyPayload, recordOfVals, hcc]
      exact ⟨hq, floatDiffersD_self _ _, floatIsZero_zero hpos⟩

theorem emptyPayload_hasAny : emptyPayload.hasAny = false := rfl

/-! ## Classification of the emitted write operations -/

theorem runOps_update_mem {env : Env} {st : State} {i : ℕ} {p : UpdateVals}
    (h : WriteOp.update i p ∈ runOps env st) : (i, p) ∈ (runDiff env st).updates := by
  simp only [runOps] at h
  rcases List.mem_append.mp h with h | h
  · rcases List.mem_append.mp h with h | h
    · rcases List.mem_map.mp h with ⟨u, hu, hequ⟩
      injection hequ with h1 h2
      rw [show (i, p) = u from by  rw [← h1, ← h2]]
      exact hu
    · by_cases he : (runDiff env st).toUnlink.isEmpty = true
      · rw [if_pos he] at h
        exact absurd h (List.not_mem_nil _)
      · rw [if_neg he] at h
        exact WriteOp.noConfusion (List.mem_singleton.mp h)
  · rcases List.mem_map.mp h with ⟨b, -, hb⟩
    exact WriteOp.noConfusion hb

theorem runOps_unlink_mem {env : Env} {st : State} {ids : List ℕ}
    (h : WriteOp.unlink ids ∈ runOps env st) : ids = (runDiff env st).toUnlink := by
  simp only [runOps] at h
  rcases List.mem_append.mp h with h | h
  · rcases List.mem_append.mp h with h | h
    · rcases List.mem_map.mp h with ⟨u, -, hequ⟩
      exact WriteOp.noConfusion hequ
    · by_cases he : (runDiff env st).toUnlink.isEmpty = true
      · rw [if_pos he] at h
        exact absurd h (List.not_mem_nil _)
      · rw [if_neg he] at h
        have := List.mem_singleton.mp h
        injection this
  · rcases List.mem_map.mp h with ⟨b, -, hb⟩
    exact WriteOp.noConfusion hb

theorem runOps_mem_cases {env : Env} {st : State} {op : WriteOp}
    (h : op ∈ runOps env st) :
    (∃ u ∈ (runDiff env st).updates, op = WriteOp.update u.1 u.2) ∨
    op = WriteOp.unlink (runDiff env st).toUnlink ∨
    ∃ b, op = WriteOp.createBatch b := by
  simp only [runOps] at h
  rcases List.mem_append.mp h with h | h
  · rcases List.mem_append.mp h with h | h
    · rcases List.mem_map.mp h with ⟨u, hu, hequ⟩
      exact Or.inl ⟨u, hu, hequ.symm⟩
    · by_cases he : (runDiff env st).toUnlink.isEmpty = true
      · rw [if_pos he] at h
        exact absurd h (List.not_mem_nil _)
      · rw [if_neg he] at h
        exact Or.inr (Or.inl (List.mem_singleton.mp h))
  · rcases List.mem_map.mp h with ⟨b, -, hb⟩
    exact Or.inr (Or.inr ⟨b, hb.symm⟩)

/-! ## The claims -/

/-- C3: the eligibility scan produces a mapping keyed by source line id whose
keys are exactly the SourceLines satisfying: parent document posted, product
line (not section or note), product set, paid invoice or credit note (the
latter regardless of payment state), and commission rate strictly positive. -/
theorem claim_c3 (env : Env) (l : MoveLine) (hwf : EnvWF env) (hl : l ∈ env.lines) :
    l.id ∈ keysOf (buildEligMap env) ↔ eligiblePred l :=
  elig_keys_iff hwf hl

/-- Witness for C3 at the concrete environment `envW`. -/
theorem claim_c3_witness : lineW.id ∈ keysOf (buildEligMap envW) ↔ eligiblePred lineW :=
  claim_c3 envW lineW (by  with_unfolding_all decide) (by  with_unfolding_all decide)

/-- C6: for an existing record whose source line id is absent from the
eligibility map, the record is deleted iff the re-check fails — the line no
longer exists, or its document is not posted, or it is an invoice not in paid
state; otherwise the record is kept, unchanged. -/
theorem claim_c6 (env : Env) (st : State) (k : ℕ) (cl : CommissionLine)
    (hwf : EnvWF env) (hS : StateWF st)
    (hmem : (k, cl) ∈ existingMap st.commLines)
    (habs : lookupD (buildEligMap env) k = none) :
    ((∀ cl' ∈ (run env st).commLines, cl'.id ≠ cl.id) ↔
      (lookupLine env k = none ∨
        ∃ l, lookupLine env k = some l ∧
          (l.move.state ≠ MoveState.posted ∨
            (l.move.moveType = MoveType.outInvoice ∧
              l.move.paymentState ≠ PayState.paid)))) ∧
    (¬ (lookupLine env k = none ∨
        ∃ l, lookupLine env k = some l ∧
          (l.move.state ≠ MoveState.posted ∨
            (l.move.moveType = MoveType.outInvoice ∧
              l.move.paymentState ≠ PayState.paid))) →
      cl ∈ (run env st).commLines) := by
  have hm := (mem_existingMap hS.2.2).mp hmem
  have hkeep : ¬ (lookupLine env k = none ∨
      ∃ l, lookupLine env k = some l ∧
        (l.move.state ≠ MoveState.posted ∨
          (l.move.moveType = MoveType.outInvoice ∧
            l.move.paymentState ≠ PayState.paid))) →
      cl ∈ (run env st).commLines := by
    intro hgood
    have hbad : delCheckBad env k = false :=
      Bool.eq_false_iff.mpr (fun hb => hgood (delCheckBad_iff.mp hb))
    rw [mem_run_iff]
    left
    have hnolook : ∀ k', cl.invoiceLineId = some k' →
        lookupD (buildEligMap env) k' = none := by
      intro k' hk'
      rw [hm.2] at hk'
      injection hk' with hk2
      rw [← hk2]
      exact habs
    exact ⟨cl, hm.1, (survivor_eq_of_unmatched hS hm.1 hnolook).symm,
      Bool.eq_false_iff.mpr
        (fun hc => not_unlinked_of_good hS hm.1 hm.2 hbad (contains_iff_mem.mp hc))⟩
  refine ⟨⟨?_, ?_⟩, hkeep⟩
  · intro hdel
    by_contra hgood
    exact hdel cl (hkeep hgood) rfl
  · intro hbadP cl' hcl' hid
    have hbad : delCheckBad env k = true := delCheckBad_iff.mpr hbadP
    have hunl : cl.id ∈ (runDiff env st).toUnlink :=
      unlinked_of_bad hS hm.1 hm.2 habs hbad
    rw [mem_run_iff] at hcl'
    rcases hcl' with ⟨cl0, hcl0, heq, hcont⟩ | hcr
    · have h1 : (runDiff env st).toUnlink.contains cl'.id = true := by
        rw [hid]
        exact contains_iff_mem.mpr hunl
      rw [hcont] at h1
      exact Bool.noConfusion h1
    · have h1 := mem_createRecords_ids hcr
      have h2 := hS.2.1 cl hm.1
      omega

/-- Witness for C6: in `envRate0` the product rate dropped to zero, so line 1
is out of the eligibility map; the re-check passes (posted, paid invoice) and
the record is kept. -/
theorem claim_c6_witness :
    ((∀ cl' ∈ (run envRate0 stW).commLines, cl'.id ≠ recW.id) ↔
      (lookupLine envRate0 1 = none ∨
        ∃ l, lookupLine envRate0 1 = some l ∧
          (l.move.state ≠ MoveState.posted ∨
            (l.move.moveType = MoveType.outInvoice ∧
              l.move.paymentState ≠ PayState.paid)))) ∧
    (¬ (lookupLine envRate0 1 = none ∨
        ∃ l, lookupLine envRate0 1 = some l ∧
          (l.move.state ≠ MoveState.posted ∨
            (l.move.moveType = MoveType.outInvoice ∧
              l.move.paymentState ≠ PayState.paid))) →
      recW ∈ (run envRate0 stW).commLines) :=
  claim_c6 envRate0 stW 1 recW (by  with_unfolding_all decide)
    (by  with_unfolding_all decide) (by  with_unfolding_all decide)
    (by  with_unfolding_all decide)

/-- C8: `run_commission_sync` returns `true` on successful completion,
including a completion that performs zero writes; an injected internal failure
is absorbed into a `false` return (never an exception), and the writes applied
before the failure remain committed — no rollback. -/
theorem claim_c8 (env : Env) (st : State) :
    runSync env st none = (run env st, true) ∧
    (runOps env st = [] → runSync env st none = (st, true)) ∧
    ∀ k, runSync env st (some k) = (applyOps st ((runOps env st).take k), false) := by
  refine ⟨rfl, ?_, fun k => rfl⟩
  intro h
  show (run env st, true) = (st, true)
  unfold run
  rw [h]
  rfl

/-- Witness for C8: on `envW`/`stW` the run is a zero-write success. -/
theorem claim_c8_witness : runSync envW stW none = (stW, true) :=
  (claim_c8 envW stW).2.1 (by  with_unfolding_all decide)

/-- C9: the Apply phase emits, in this order: the per-record field updates,
then a single bulk unlink of all flagged records (when there are any), then
creation batches of at most 100 records each whose concatenation is exactly
the list of new records — every new record lies in exactly one batch. -/
theorem claim_c9 (env : Env) (st : State) :
    ∃ (dels : List WriteOp) (batches : List (List Vals)),
      runOps env st =
        ((runDiff env st).updates.map (fun u => WriteOp.update u.1 u.2)) ++ dels ++
          batches.map WriteOp.createBatch ∧
      ((runDiff env st).toUnlink = [] → dels = []) ∧
      ((runDiff env st).toUnlink ≠ [] →
        dels = [WriteOp.unlink (runDiff env st).toUnlink]) ∧
      batches.flatten = (runDiff env st).elig.map (fun e => e.2) ∧
      ∀ b ∈ batches, b.length ≤ 100 ∧ b ≠ [] := by
  refine ⟨(if (runDiff env st).toUnlink.isEmpty then []
      else [WriteOp.unlink (runDiff env st).toUnlink]),
    chunk 100 ((runDiff env st).elig.map (fun e => e.2)),
    ?_, ?_, ?_, chunk_join 100 (by  omega) _, chunk_batches 100 (by  omega) _⟩
  · rfl
  · intro h
    simp [h]
  · intro h
    simp [List.isEmpty_iff, h]

/-- C10: an existing CommissionRecord whose `invoice_line_id` reference is
unset is skipped by the diff: it survives the run unchanged and no emitted
write operation targets it. -/
theorem claim_c10 (env : Env) (st : State) (cl : CommissionLine) (hS : StateWF st)
    (hcl : cl ∈ st.commLines) (hnone : cl.invoiceLineId = none) :
    cl ∈ (run env st).commLines ∧ ∀ op ∈ runOps env st, opTargets op cl.id = false := by
  constructor
  · rw [mem_run_iff]
    left
    exact ⟨cl, hcl, (not_updated_of_orphan hS hcl hnone).symm,
      Bool.eq_false_iff.mpr
        (fun hc => not_unlinked_of_orphan hS hcl hnone (contains_iff_mem.mp hc))⟩
  · intro op hop
    rcases runOps_mem_cases hop with ⟨u, hu, rfl⟩ | rfl | ⟨b, rfl⟩
    · show (u.1 == cl.id) = false
      rw [beq_eq_false_iff_ne]
      intro hc
      rw [runDiff_spec] at hu
      rcases mem_updatesOf.mp (show (u.1, u.2) ∈ _ from hu) with
        ⟨e, he, v, hv, hp, hany, hid⟩
      have he2 := (mem_existingMap hS.2.2).mp he
      have : e.2 = cl := id_inj_commLines hS he2.1 hcl (by  rw [← hid, hc])
      subst this
      rw [he2.2] at hnone
      exact Option.noConfusion hnone
    · show (runDiff env st).toUnlink.contains cl.id = false
      exact Bool.eq_false_iff.mpr
        (fun hc => not_unlinked_of_orphan hS hcl hnone (contains_iff_mem.mp hc))
    · rfl

/-- Witness for C10 at the orphan record of `stOrphan`. -/
theorem claim_c10_witness :
    recOrphan ∈ (run envW stOrphan).commLines ∧
      ∀ op ∈ runOps envW stOrphan, opTargets op recOrphan.id = false :=
  claim_c10 envW stOrphan recOrphan (by  with_unfolding_all decide)
    (by  with_unfolding_all decide) rfl

/-- C1 counterexample: in `envRate0` the product's commission rate has dropped
to zero, so `lineRate0` fails the section 4.1 predicate; yet after a completed
run its CommissionRecord still exists, because the deletion re-check only
tests existence, posted state and invoice payment — the claimed
"exists iff eligible" equivalence fails. -/
theorem claim_c1_counterexample :
    lineRate0 ∈ envRate0.lines ∧ ¬ eligiblePred lineRate0 ∧
    ∃ cl ∈ (run envRate0 stW).commLines, cl.invoiceLineId = some lineRate0.id := by
  with_unfolding_all decide

/-- C1 amended: after a completed run, every SourceLine satisfying the
section 4.1 predicate has a CommissionRecord; a SourceLine failing the
predicate has none provided it also fails the deletion re-check (its document
is not posted, or it is an invoice not in paid state).  A line that fails the
predicate for any other reason (e.g. its rate dropped to zero while the
document stays posted and paid) may keep a stale record. -/
theorem claim_c1_amended (env : Env) (st : State) (l : MoveLine)
    (hwf : EnvWF env) (hS : StateWF st) (hl : l ∈ env.lines) :
    (eligiblePred l → ∃ cl ∈ (run env st).commLines, cl.invoiceLineId = some l.id) ∧
    (¬ eligiblePred l →
      (l.move.state ≠ MoveState.posted ∨
        (l.move.moveType = MoveType.outInvoice ∧ l.move.paymentState ≠ PayState.paid)) →
      ∀ cl ∈ (run env st).commLines, cl.invoiceLineId ≠ some l.id) := by
  constructor
  · intro helig
    have hkey : l.id ∈ keysOf (buildEligMap env) := (elig_keys_iff hwf hl).mpr helig
    rcases lookupD_isSome_of_mem_keysOf hkey with ⟨v, hv⟩
    by_cases hex : l.id ∈ keysOf (existingMap st.commLines)
    · rw [keysOf_existingMap hS.2.2] at hex
      rcases List.mem_filterMap.mp hex with ⟨cl0, hcl0, hk0⟩
      refine ⟨applyList (runDiff env st).updates cl0, ?_, ?_⟩
      · rw [mem_run_iff]
        left
        refine ⟨cl0, hcl0, rfl, ?_⟩
        rw [applyList_id]
        exact Bool.eq_false_iff.mpr
          (fun hc => not_unlinked_of_matched hS hcl0 hk0 hv (contains_iff_mem.mp hc))
      · rw [applyList_invoiceLineId]
        exact hk0
    · have hmemE : (l.id, v) ∈ buildEligMap env := mem_of_lookupD_eq_some hv
      have hmemD : (l.id, v) ∈ (runDiff env st).elig := by
        rw [runDiff_spec]
        exact List.mem_filter.mpr ⟨hmemE, by  simpa using hex⟩
      have hvV : v ∈ (runDiff env st).elig.map (fun e => e.2) :=
        List.mem_map.mpr ⟨(l.id, v), hmemD, rfl⟩
      rcases createRecords_mem_of_val hvV st.nextId with ⟨cl, hcl, hcleq⟩
      refine ⟨cl, ?_, ?_⟩
      · rw [mem_run_iff]
        exact Or.inr hcl
      · rw [hcleq]
        show some v.invoiceLineId = some l.id
        rw [(buildEligMap_key hmemE).1]
  · intro hnel hrecheck cl hcl hkey
    have habs : lookupD (buildEligMap env) l.id = none := by
      rw [lookupD_eq_none]
      intro hc
      exact hnel ((elig_keys_iff hwf hl).mp hc)
    have hbad : delCheckBad env l.id = true := by
      apply delCheckBad_iff.mpr
      right
      exact ⟨l, lookupLine_self hwf hl, hrecheck⟩
    rw [mem_run_iff] at hcl
    rcases hcl with ⟨cl0, hcl0, heq, hcont⟩ | hcr
    · have hk0 : cl0.invoiceLineId = some l.id := by
        rw [← hkey, heq, applyList_invoiceLineId]
      have hunl : cl0.id ∈ (runDiff env st).toUnlink :=
        unlinked_of_bad hS hcl0 hk0 habs hbad
      have h1 : (runDiff env st).toUnlink.contains cl.id = true := by
        rw [heq, applyList_id]
        exact contains_iff_mem.mpr hunl
      rw [hcont] at h1
      exact Bool.noConfusion h1
    · rcases mem_createRecords_val hcr with ⟨v, hvV, i, hceq⟩
      rcases List.mem_map.mp hvV with ⟨e, he, hev⟩
      have heE := (elig_sub_buildEligMap he).1
      have heE2 : (e.1, v) ∈ buildEligMap env := by
        rw [← hev]
        exact heE
      have hkv : v.invoiceLineId = e.1 := (buildEligMap_key heE2).1
      have hvil : v.invoiceLineId = l.id := by
        rw [hceq] at hkey
        injection hkey
      rw [lookupD_eq_none] at habs
      apply habs
      rw [← hvil, hkv]
      exact mem_keysOf.mpr ⟨v, heE2⟩

/-- Witness for C1 amended on the empty store: the eligible `lineW` gets a
record. -/
theorem claim_c1_amended_witness :
    (eligiblePred lineW →
      ∃ cl ∈ (run envW stEmpty).commLines, cl.invoiceLineId = some lineW.id) ∧
    (¬ eligiblePred lineW →
      (lineW.move.state ≠ MoveState.posted ∨
        (lineW.move.moveType = MoveType.outInvoice ∧
          lineW.move.paymentState ≠ PayState.paid)) →
      ∀ cl ∈ (run envW stEmpty).commLines, cl.invoiceLineId ≠ some lineW.id) :=
  claim_c1_amended envW stEmpty lineW (by  with_unfolding_all decide)
    (by  with_unfolding_all decide) (by  with_unfolding_all decide)

/-- C4 counterexample: on `envAmt`/`stAmt` the run updates record 1 (its rate,
99.99 → 100), but the amount (off by 0.004) and the subtotal (off by 0.004)
stay within the cent currency's zero tolerance and are not written; the
resulting record has `commission_amount = 79.992` and
`line_subtotal × rate / 100 = 80`, violating the claimed relation beyond the
currency tolerance for a record "updated by a run". -/
theorem claim_c4_counterexample :
    (∃ op ∈ runOps envAmt stAmt,
      (match op with
        | WriteOp.update i _ => i == recAmt.id
        | _ => false) = true) ∧
    ∃ cl ∈ (run envAmt stAmt).commLines, cl.invoiceLineId = some lineAmt.id ∧
      (lookupCurrency envAmt cl.companyId).map
        (fun c => currencyIsZero c
          (cl.commissionAmount - cl.lineSubtotal * cl.commissionRate / 100)) =
        some false := by
  with_unfolding_all decide

/-- C4 amended: every CommissionRecord created by a run satisfies
`commission_amount = line_subtotal × rate / 100` exactly, negated for credit
notes; and every amount a run writes in an update payload is exactly such a
computed value.  (A record whose amount write is suppressed by the tolerance
check can drift from the relation when other fields are updated.) -/
theorem claim_c4_amended (env : Env) (st : State) (hwf : EnvWF env)
    (hS : StateWF st) :
    (∀ cl ∈ (run env st).commLines, st.nextId ≤ cl.id →
      ∃ l ∈ env.lines, cl.invoiceLineId = some l.id ∧
        cl.commissionAmount = (if l.move.moveType = MoveType.outRefund
          then -(cl.lineSubtotal * (cl.commissionRate / 100))
          else cl.lineSubtotal * (cl.commissionRate / 100))) ∧
    (∀ op ∈ runOps env st, ∀ i p, op = WriteOp.update i p →
      ∀ a, p.commissionAmount = some a →
      ∃ l ∈ env.lines, ∃ v, computeVals env l = some v ∧ a = v.commissionAmount ∧
        a = (if l.move.moveType = MoveType.outRefund
          then -(v.lineSubtotal * (v.commissionRate / 100))
          else v.lineSubtotal * (v.commissionRate / 100))) := by
  constructor
  · intro cl hcl hid
    rw [mem_run_iff] at hcl
    rcases hcl with ⟨cl0, hcl0, heq, -⟩ | hcr
    · exfalso
      have h1 := hS.2.1 cl0 hcl0
      rw [heq, applyList_id] at hid
      omega
    · rcases mem_createRecords_val hcr with ⟨v, hvV, i, hceq⟩
      rcases List.mem_map.mp hvV with ⟨e, he, hev⟩
      have heE2 : (e.1, v) ∈ buildEligMap env := by
        rw [← hev]
        exact (elig_sub_buildEligMap he).1
      rcases (buildEligMap_key heE2).2 with ⟨l, hlE, hlid, hcv⟩
      have hspec := computeVals_spec hcv
      refine ⟨l, ((mem_eligibleLines env).mp hlE).1, ?_, ?_⟩
      · rw [hceq]
        show some v.invoiceLineId = some l.id
        rw [hspec.1]
      · rw [hceq]
        show v.commissionAmount = (if l.move.moveType = MoveType.outRefund
          then -((recordOfVals i v).lineSubtotal * ((recordOfVals i v).commissionRate / 100))
          else (recordOfVals i v).lineSubtotal * ((recordOfVals i v).commissionRate / 100))
        exact hspec.2.2.2.2.2.2.1
  · intro op hop i p hope a hpa
    rw [hope] at hop
    have hup := runOps_update_mem hop
    rw [runDiff_spec] at hup
    rcases mem_updatesOf.mp hup with ⟨e, he, v, hv, hpv, -, -⟩
    have ha : a = v.commissionAmount := by
      apply payload_amount_eq
      rw [← hpv]
      exact hpa
    have hvE : (e.1, v) ∈ buildEligMap env := mem_of_lookupD_eq_some hv
    rcases (buildEligMap_key hvE).2 with ⟨l, hlE, hlid, hcv⟩
    have hspec := computeVals_spec hcv
    refine ⟨l, ((mem_eligibleLines env).mp hlE).1, v, hcv, ha, ?_⟩
    rw [ha]
    exact hspec.2.2.2.2.2.2.1

/-- Witness for C4 amended on `envW` with the empty store. -/
theorem claim_c4_amended_witness :
    (∀ cl ∈ (run envW stEmpty).commLines, stEmpty.nextId ≤ cl.id →
      ∃ l ∈ envW.lines, cl.invoiceLineId = some l.id ∧
        cl.commissionAmount = (if l.move.moveType = MoveType.outRefund
          then -(cl.lineSubtotal * (cl.commissionRate / 100))
          else cl.lineSubtotal * (cl.commissionRate / 100))) ∧
    (∀ op ∈ runOps envW stEmpty, ∀ i p, op = WriteOp.update i p →
      ∀ a, p.commissionAmount = some a →
      ∃ l ∈ envW.lines, ∃ v, computeVals envW l = some v ∧ a = v.commissionAmount ∧
        a = (if l.move.moveType = MoveType.outRefund
          then -(v.lineSubtotal * (v.commissionRate / 100))
          else v.lineSubtotal * (v.commissionRate / 100))) :=
  claim_c4_amended envW stEmpty (by  with_unfolding_all decide)
    (by  with_unfolding_all decide)

theorem iterate_StateWF (env : Env) (st : State) (hS : StateWF st) :
    ∀ n : ℕ, StateWF ((fun s => run env s)^[n] st) := by
  intro n
  induction n with
  | zero => simpa using hS
  | succ n ih =>
      rw [Function.iterate_succ_apply']
      exact run_preserves_StateWF ih

/-- C5: for every source_line_id at most one CommissionRecord references it,
and this stays true after any number of repeated runs — no run creates a
second record for a line that already has one. -/
theorem claim_c5 (env : Env) (st : State) (hS : StateWF st) (n : ℕ) :
    uniqKeys ((fun s => run env s)^[n] st).commLines :=
  (iterate_StateWF env st hS n).2.2

/-- Witness for C5 after two runs on `stW`. -/
theorem claim_c5_witness : uniqKeys ((fun s => run envW s)^[2] stW).commLines :=
  claim_c5 envW stW (by  with_unfolding_all decide) 2

/-- C7: for a source line present in both the eligibility map and the
existing records, the update payload contains exactly the fields whose old
and new values differ beyond tolerance — quantity at the unit-of-measure
rounding (fallback six digits without a unit), rate at four digits, the two
monetary fields by the company currency's zero-tolerance test, id fields by
exact equality — and a record with no differing field produces no write at
all. -/
theorem claim_c7 (env : Env) (st : State) (k : ℕ) (cl : CommissionLine) (v : Vals)
    (c : Currency) (hwf : EnvWF env) (hS : StateWF st)
    (hmem : (k, cl) ∈ existingMap st.commLines)
    (hv : lookupD (buildEligMap env) k = some v)
    (hc : lookupCurrency env cl.companyId = some c) :
    (updatePayload env cl v).quantity =
      (if specQtyDiffers env cl v then some v.quantity else none) ∧
    (updatePayload env cl v).commissionRate =
      (if floatDiffersD cl.commissionRate v.commissionRate 4 then some v.commissionRate
        else none) ∧
    (updatePayload env cl v).commissionAmount =
      (if currencyIsZero c (cl.commissionAmount - v.commissionAmount) then none
        else some v.commissionAmount) ∧
    (updatePayload env cl v).lineSubtotal =
      (if currencyIsZero c (cl.lineSubtotal - v.lineSubtotal) then none
        else some v.lineSubtotal) ∧
    (updatePayload env cl v).salespersonId =
      (if cl.salespersonId = some v.salespersonId then none else some v.salespersonId) ∧
    (updatePayload env cl v).invoiceId =
      (if cl.invoiceId = some v.invoiceId then none else some v.invoiceId) ∧
    (updatePayload env cl v).productId =
      (if cl.productId = some v.productId then none else some v.productId) ∧
    (updatePayload env cl v).companyId =
      (if cl.companyId = some v.companyId then none else some v.companyId) ∧
    ((updatePayload env cl v).hasAny = false →
      cl ∈ (run env st).commLines ∧ ∀ op ∈ runOps env st, opTargets op cl.id = false) := by
  have hm := (mem_existingMap hS.2.2).mp hmem
  refine ⟨?_, rfl, ?_, ?_, ?_, ?_, ?_, ?_, ?_⟩
  · show (if qtyDiffers env cl v then some v.quantity else none) = _
    rw [qtyDiffers_eq_spec hwf]
  · show (match lookupCurrency env cl.companyId with
      | some c =>
          if !(currencyIsZero c (cl.commissionAmount - v.commissionAmount)) then
            some v.commissionAmount
          else none
      | none => none) = _
    rw [hc]
    by_cases hz : currencyIsZero c (cl.commissionAmount - v.commissionAmount) = true
    · simp [hz]
    · simp [hz, Bool.eq_false_iff.mpr hz]
  · show (match lookupCurrency env cl.companyId with
      | some c =>
          if !(currencyIsZero c (cl.lineSubtotal - v.lineSubtotal)) then
            some v.lineSubtotal
          else none
      | none => none) = _
    rw [hc]
    by_cases hz : currencyIsZero c (cl.lineSubtotal - v.lineSubtotal) = true
    · simp [hz]
    · simp [hz, Bool.eq_false_iff.mpr hz]
  · show (if cl.salespersonId ≠ some v.salespersonId then some v.salespersonId else none) = _
    by_cases h : cl.salespersonId = some v.salespersonId
    · simp [h]
    · simp [h]
  · show (if cl.invoiceId ≠ some v.invoiceId then some v.invoiceId else none) = _
    by_cases h : cl.invoiceId = some v.invoiceId
    · simp [h]
    · simp [h]
  · show (if cl.productId ≠ some v.productId then some v.productId else none) = _
    by_cases h : cl.productId = some v.productId
    · simp [h]
    · simp [h]
  · show (if cl.companyId ≠ some v.companyId then some v.companyId else none) = _
    by_cases h : cl.companyId = some v.companyId
    · simp [h]
    · simp [h]
  · intro hany
    have heq : applyList (runDiff env st).updates cl = cl := by
      rw [survivor_eq_of_matched hS hm.1 hm.2 hv, applyUpdate_of_empty hany]
    constructor
    · rw [mem_run_iff]
      left
      exact ⟨cl, hm.1, heq.symm,
        Bool.eq_false_iff.mpr
          (fun hcon => not_unlinked_of_matched hS hm.1 hm.2 hv
            (contains_iff_mem.mp hcon))⟩
    · intro op hop
      rcases runOps_mem_cases hop with ⟨u, hu, rfl⟩ | rfl | ⟨b, rfl⟩
      · show (u.1 == cl.id) = false
        rw [beq_eq_false_iff_ne]
        intro hcon
        rw [runDiff_spec] at hu
        rcases mem_updatesOf.mp (show (u.1, u.2) ∈ _ from hu) with
          ⟨e, he, v', hv', hpv, hpa, hid⟩
        have he2 := (mem_existingMap hS.2.2).mp he
        have hecl : e.2 = cl := id_inj_commLines hS he2.1 hm.1 (by  rw [← hid, hcon])
        have hek : e.1 = k := by
          have h3 := he2.2
          rw [hecl, hm.2] at h3
          injection h3 with h4
          exact h4.symm
        rw [hek, hv] at hv'
        injection hv' with hv2
        rw [hpv, hecl, ← hv2, hany] at hpa
        exact Bool.noConfusion hpa
      · show (runDiff env st).toUnlink.contains cl.id = false
        exact Bool.eq_false_iff.mpr
          (fun hcon => not_unlinked_of_matched hS hm.1 hm.2 hv
            (contains_iff_mem.mp hcon))
      · rfl

/-- Witness for C7 at the matched record `recW`. -/
theorem claim_c7_witness :
    (updatePayload envW recW valsW).quantity =
      (if specQtyDiffers envW recW valsW then some valsW.quantity else none) ∧
    (updatePayload envW recW valsW).commissionRate =
      (if floatDiffersD recW.commissionRate valsW.commissionRate 4 then
        some valsW.commissionRate else none) ∧
    (updatePayload envW recW valsW).commissionAmount =
      (if currencyIsZero { rounding := 1/100 }
          (recW.commissionAmount - valsW.commissionAmount) then none
        else some valsW.commissionAmount) ∧
    (updatePayload envW recW valsW).lineSubtotal =
      (if currencyIsZero { rounding := 1/100 }
          (recW.lineSubtotal - valsW.lineSubtotal) then none
        else some valsW.lineSubtotal) ∧
    (updatePayload envW recW valsW).salespersonId =
      (if recW.salespersonId = some valsW.salespersonId then none
        else some valsW.salespersonId) ∧
    (updatePayload envW recW valsW).invoiceId =
      (if recW.invoiceId = some valsW.invoiceId then none else some valsW.invoiceId) ∧
    (updatePayload envW recW valsW).productId =
      (if recW.productId = some valsW.productId then none else some valsW.productId) ∧
    (updatePayload envW recW valsW).companyId =
      (if recW.companyId = some valsW.companyId then none else some valsW.companyId) ∧
    ((updatePayload envW recW valsW).hasAny = false →
      recW ∈ (run envW stW).commLines ∧
        ∀ op ∈ runOps envW stW, opTargets op recW.id = false) :=
  claim_c7 envW stW 1 recW valsW { rounding := 1/100 }
    (by  with_unfolding_all decide) (by  with_unfolding_all decide)
    (by  with_unfolding_all decide) (by  with_unfolding_all decide)
    (by  with_unfolding_all decide)

/-- C2 counterexample: in `stCur` the record's stored company is 2 (whose
currency has zero-tolerance 500) while the computed company is 1 (cent
currency).  The first run only rewrites `company_id` — the amount difference
of 10 is within company 2's tolerance because the comparison currency is read
from the record before the write.  The second run, now comparing with company
1's currency, writes `commission_amount`: the second invocation is not
write-free. -/
theorem claim_c2_counterexample :
    runOps envCur (run envCur stCur) ≠ [] ∧
    run envCur (run envCur stCur) ≠ run envCur stCur := by
  with_unfolding_all decide

/-- C2 amended: running the engine twice with no source-data change performs
zero writes on the second run and leaves the record set identical, provided
the first run changes no record's comparison currency — i.e. for every
existing record matched by the scan, the currency of its stored company
equals the currency of the freshly computed company.  (Without that proviso a
company change can defer the amount write to the second run, as the
counterexample shows.) -/
theorem claim_c2_amended (env : Env) (st : State) (hwf : EnvWF env) (hS : StateWF st)
    (hcur : ∀ k cl v, (k, cl) ∈ existingMap st.commLines →
      lookupD (buildEligMap env) k = some v →
      lookupCurrency env cl.companyId = lookupCurrency env (some v.companyId)) :
    runOps env (run env st) = [] ∧ run env (run env st) = run env st := by
  have hS1 : StateWF (run env st) := run_preserves_StateWF hS
  have hEnodup : (keysOf (buildEligMap env)).Nodup := nodup_keysOf_dictOfList _ _
  have hentry : ∀ k cl', (k, cl') ∈ existingMap (run env st).commLines →
      (∀ v, lookupD (buildEligMap env) k = some v →
        updatePayload env cl' v = emptyPayload) ∧
      (lookupD (buildEligMap env) k = none → delCheckBad env k = false) := by
    intro k cl' hkcl
    have h1 := (mem_existingMap hS1.2.2).mp hkcl
    have h2 := h1.1
    rw [mem_run_iff] at h2
    rcases h2 with ⟨cl0, hcl0, heq, hcont⟩ | hcr
    · have hk0 : cl0.invoiceLineId = some k := by
        have h3 := h1.2
        rw [heq, applyList_invoiceLineId] at h3
        exact h3
      cases hvk : lookupD (buildEligMap env) k with
      | some v =>
          constructor
          · intro v' hv'
            injection hv' with hvv
            subst hvv
            rw [heq, survivor_eq_of_matched hS hcl0 hk0 hvk]
            exact payload_stable hwf
              (hcur k cl0 v ((mem_existingMap hS.2.2).mpr ⟨hcl0, hk0⟩) hvk)
          · intro hnone
            exact Option.noConfusion hnone
      | none =>
          constructor
          · intro v' hv'
            exact Option.noConfusion hv'
          · intro hnone2
            by_contra hbad2
            have hbad : delCheckBad env k = true := by
              cases hb : delCheckBad env k
              · exact absurd hb hbad2
              · rfl
            have hunl := unlinked_of_bad hS hcl0 hk0 hvk hbad
            have h4 : (runDiff env st).toUnlink.contains cl'.id = true := by
              rw [heq, applyList_id]
              exact contains_iff_mem.mpr hunl
            rw [hcont] at h4
            exact Bool.noConfusion h4
    · rcases mem_createRecords_val hcr with ⟨v, hvV, i, hceq⟩
      rcases List.mem_map.mp hvV with ⟨e, he, hev⟩
      have heE2 : (e.1, v) ∈ buildEligMap env := by
        rw [← hev]
        exact (elig_sub_buildEligMap he).1
      have hkv : v.invoiceLineId = e.1 := (buildEligMap_key heE2).1
      have hvik : v.invoiceLineId = k := by
        have h3 := h1.2
        rw [hceq] at h3
        injection h3
      have hlook : lookupD (buildEligMap env) k = some v := by
        rw [← hvik, hkv]
        exact lookupD_eq_some_of_mem_nodup hEnodup heE2
      constructor
      · intro v' hv'
        rw [hlook] at hv'
        injection hv' with hvv
        subst hvv
        rw [hceq]
        exact payload_fresh hwf i v
      · intro hnone
        rw [hlook] at hnone
        exact Option.noConfusion hnone
  have hcover : ∀ e ∈ buildEligMap env,
      e.1 ∈ keysOf (existingMap (run env st).commLines) := by
    intro e heE
    have heE' : (e.1, e.2) ∈ buildEligMap env := heE
    have hlook : lookupD (buildEligMap env) e.1 = some e.2 :=
      lookupD_eq_some_of_mem_nodup hEnodup heE'
    by_cases hex : e.1 ∈ keysOf (existingMap st.commLines)
    · rw [keysOf_existingMap hS.2.2] at hex
      rcases List.mem_filterMap.mp hex with ⟨cl0, hcl0, hk0⟩
      have hsurvmem : applyList (runDiff env st).updates cl0 ∈ (run env st).commLines := by
        rw [mem_run_iff]
        left
        refine ⟨cl0, hcl0, rfl, ?_⟩
        rw [applyList_id]
        exact Bool.eq_false_iff.mpr
          (fun hcon => not_unlinked_of_matched hS hcl0 hk0 hlook
            (contains_iff_mem.mp hcon))
      rw [keysOf_existingMap hS1.2.2]
      apply List.mem_filterMap.mpr
      refine ⟨applyList (runDiff env st).updates cl0, hsurvmem, ?_⟩
      rw [applyList_invoiceLineId]
      exact hk0
    · have hmemD : e ∈ (runDiff env st).elig := by
        rw [runDiff_spec]
        exact List.mem_filter.mpr ⟨heE, by  simpa using hex⟩
      have hvV : e.2 ∈ (runDiff env st).elig.map (fun x => x.2) :=
        List.mem_map.mpr ⟨e, hmemD, rfl⟩
      rcases createRecords_mem_of_val hvV st.nextId with ⟨cl, hclC, hcleq⟩
      have hclmem : cl ∈ (run env st).commLines := by
        rw [mem_run_iff]
        exact Or.inr hclC
      rw [keysOf_existingMap hS1.2.2]
      apply List.mem_filterMap.mpr
      refine ⟨cl, hclmem, ?_⟩
      rw [hcleq]
      show some (e.2).invoiceLineId = some e.1
      rw [(buildEligMap_key heE').1]
  have hdiff : runDiff env (run env st) =
      { elig := [], updates := [], toUnlink := [] } := by
    rw [runDiff_spec]
    have h1 : (buildEligMap env).filter
        (fun x => decide (x.1 ∉ keysOf (existingMap (run env st).commLines))) = [] := by
      apply List.filter_eq_nil.mpr
      intro a ha
      simp only [decide_eq_true_eq]
      exact not_not_intro (hcover a ha)
    have h2 : updatesOf env (buildEligMap env)
        (existingMap (run env st).commLines) = [] := by
      apply List.filterMap_eq_nil.mpr
      intro e he
      cases hvk : lookupD (buildEligMap env) e.1 with
      | none => rfl
      | some v =>
          have hpe := (hentry e.1 e.2 he).1 v hvk
          show (if (updatePayload env e.2 v).hasAny then
            some (e.2.id, updatePayload env e.2 v) else none) = none
          rw [hpe]
          rfl
    have h3 : unlinksOf env (buildEligMap env)
        (existingMap (run env st).commLines) = [] := by
      apply List.filterMap_eq_nil.mpr
      intro e he
      cases hvk : lookupD (buildEligMap env) e.1 with
      | none =>
          have hgood := (hentry e.1 e.2 he).2 hvk
          show (if delCheckBad env e.1 then some e.2.id else none) = none
          rw [hgood]
          rfl
      | some v => rfl
    rw [h1, h2, h3]
  have hops : runOps env (run env st) = [] := by
    simp only [runOps, hdiff]
    rfl
  refine ⟨hops, ?_⟩
  calc run env (run env st) = applyOps (run env st) (runOps env (run env st)) := rfl
    _ = applyOps (run env st) [] := by  rw [hops]
    _ = run env st := rfl

/-- Witness for C2 amended: on `envW`/`stW` the stored and computed companies
agree, and the double run is write-free. -/
theorem claim_c2_amended_witness :
    runOps envW (run envW stW) = [] ∧ run envW (run envW stW) = run envW stW :=
  claim_c2_amended envW stW (by  with_unfolding_all decide)
    (by  with_unfolding_all decide)
    (by
      intro k cl v hmem hv
      have hone : existingMap stW.commLines = [(1, recW)] := by
        with_unfolding_all decide
      rw [hone] at hmem
      have hpair : (k, cl) = (1, recW) := List.mem_singleton.mp hmem
      have hk : k = 1 := congrArg Prod.fst hpair
      have hcl : cl = recW := congrArg Prod.snd hpair
      subst hk
      subst hcl
      have hvw : lookupD (buildEligMap envW) 1 = some valsW := by
        with_unfolding_all decide
      rw [hvw] at hv
      injection hv with hv2
      rw [← hv2]
      with_unfolding_all decide)

end CommissionSync
